import Mathlib

/-! Caliper context store (`src/caliper/Context.cpp`) and tagged value.

A shallow embedding of `Context::ContextImpl`, the blackboard that keeps one
sorted vector of `(key, value)` words per environment, together with proofs
about its operations.

Modelling conventions.

* `ctx_id_t`, `uint64_t` and `size_t` are natural numbers.  `unset` hands a
  `pair<uint64_t, uint64_t>` to `std::lower_bound` over a vector of
  `pair<ctx_id_t, uint64_t>`, so `ctx_id_t` is the 64-bit unsigned type.  The
  only arithmetic of the file is `size() * 2`, `s + 1` and `s += 2` on
  quantities bounded by the size of a vector held in memory, so no operation
  wraps and no reduction modulo `2 ^ 64` is needed.
* `std::vector` is `List`; an iterator is the index it points at, `end()` is the
  length.
* The reader-writer lock `m_lock` only brackets the calls of the public
  `Context` wrappers; the sequential behaviour of a wrapper is the behaviour of
  the `ContextImpl` member it forwards to.
* The constant `CTX_INV_ID` is declared in `Context.h`, which is not part of the
  sources at hand; operations that read it take it as a parameter.
-/

namespace Caliper

/-- Modelled from the spec: the status enumeration `ctx_err`, declared in
`Context.h` and absent from the sources: success and invalid-environment, the
two enumerators that `Context.cpp` returns. -/
inductive ctx_err where
  | CTX_SUCCESS
  | CTX_EINV
  deriving DecidableEq

/-- The type `env_vec_t`: `vector< pair<ctx_id_t, uint64_t> >`. -/
abbrev env_vec_t := List (Nat × Nat)

/-- The comparison `operator<` of `std::pair`: lexicographic on the two
components, written with `<` only, as the library does. -/
def pair_lt (x y : Nat × Nat) : Bool :=
  decide (x.1 < y.1) || (!decide (y.1 < x.1) && decide (x.2 < y.2))

/-- The bisection loop of `std::lower_bound` over the half-open index range
`[first, first + len)` of `v`.  The first argument bounds the number of
iterations; each iteration at least halves `len`, so `len` iterations suffice. -/
def lower_bound_loop (v : env_vec_t) (val : Nat × Nat) : Nat → Nat → Nat → Nat
  | 0, first, _ => first
  | fuel + 1, first, len =>
    if len = 0 then first
    else
      let half := len / 2
      let middle := first + half
      if pair_lt (v.getD middle (0, 0)) val then
        lower_bound_loop v val fuel (middle + 1) (len - half - 1)
      else
        lower_bound_loop v val fuel first half

/-- The call `lower_bound(v.begin(), v.end(), val)`: the index of the iterator
returned. -/
def lower_bound (v : env_vec_t) (val : Nat × Nat) : Nat :=
  lower_bound_loop v val v.length 0 v.length

/-- The call `v.insert(it, x)` of `std::vector`, with `it` an index. -/
def vector_insert (v : env_vec_t) (it : Nat) (x : Nat × Nat) : env_vec_t :=
  v.take it ++ x :: v.drop it

/-- A caller's buffer `uint64_t buf[]`: the words found at each offset from the
pointer. -/
abbrev buf_t := Nat → Nat

/-- The assignment `buf[i] = x`. -/
def buf_write (buf : buf_t) (i x : Nat) : buf_t :=
  fun j => if j = i then x else buf j

/-- The `for` loop of `get_context`: `it` runs over the remaining pairs, `s`
counts the words written so far. -/
def get_context_loop (len : Nat) : env_vec_t → Nat → buf_t → buf_t × Nat
  | [], s, buf => (buf, s)
  | p :: rest, s, buf =>
    if s + 1 < len then
      get_context_loop len rest (s + 2) (buf_write (buf_write buf s p.1) (s + 1) p.2)
    else
      (buf, s)

/-- The data of `Context::ContextImpl`. -/
structure ContextImpl where
  m_environments : List env_vec_t
  deriving DecidableEq

namespace ContextImpl

/-- The constructor `ContextImpl()`: one empty environment. -/
def init : ContextImpl :=
  ⟨[[]]⟩

/-- The member `clone_environment`: the store afterwards and the id returned. -/
def clone_environment (CTX_INV_ID : Nat) (c : ContextImpl) (env : Nat) : ContextImpl × Nat :=
  if env = CTX_INV_ID ∨ env ≥ c.m_environments.length then
    (c, CTX_INV_ID)
  else
    let c' : ContextImpl := ⟨c.m_environments ++ [c.m_environments.getD env []]⟩
    (c', c'.m_environments.length)

/-- The member `release_environment`.  `vector::erase` is defined only for an
iterator that points at an element; for `env` at or past the size the call has
no defined result, which is `none` here. -/
def release_environment (c : ContextImpl) (env : Nat) : Option ContextImpl :=
  if env < c.m_environments.length then
    some ⟨c.m_environments.eraseIdx env⟩
  else
    none

/-- The member `record_size`. -/
def record_size (c : ContextImpl) (env : Nat) : Nat :=
  if env < c.m_environments.length then (c.m_environments.getD env []).length * 2 else 0

/-- The wrapper `Context::context_size`, which forwards to `record_size`. -/
def context_size (c : ContextImpl) (env : Nat) : Nat :=
  c.record_size env

/-- The member `get_context`: the buffer afterwards and the count returned. -/
def get_context (c : ContextImpl) (env : Nat) (buf : buf_t) (len : Nat) : buf_t × Nat :=
  if ¬ (env < c.m_environments.length) then
    (buf, 0)
  else
    get_context_loop len (c.m_environments.getD env []) 0 buf

/-- The member `get`. -/
def get (c : ContextImpl) (env key : Nat) : Bool × Nat :=
  if ¬ (env < c.m_environments.length) then
    (false, 0)
  else
    let env_p := c.m_environments.getD env []
    let it := lower_bound env_p (key, 0)
    if it = env_p.length ∨ (env_p.getD it (0, 0)).1 ≠ key then
      (false, 0)
    else
      (true, (env_p.getD it (0, 0)).2)

/-- The member `set`: the store afterwards and the status returned.  The last
parameter is the unnamed `bool /* global */`. -/
def set (c : ContextImpl) (env key value : Nat) (_global : Bool) : ContextImpl × ctx_err :=
  if ¬ (env < c.m_environments.length) then
    (c, ctx_err.CTX_EINV)
  else
    let env_p := c.m_environments.getD env []
    let it := lower_bound env_p (key, 0)
    if it ≠ env_p.length ∧ (env_p.getD it (0, 0)).1 = key then
      (⟨c.m_environments.set env (env_p.set it ((env_p.getD it (0, 0)).1, value))⟩,
        ctx_err.CTX_SUCCESS)
    else
      (⟨c.m_environments.set env (vector_insert env_p it (key, value))⟩, ctx_err.CTX_SUCCESS)

/-- The member `unset`: the store afterwards and the status returned. -/
def unset (c : ContextImpl) (env key : Nat) : ContextImpl × ctx_err :=
  if ¬ (env < c.m_environments.length) then
    (c, ctx_err.CTX_EINV)
  else
    let env_p := c.m_environments.getD env []
    let it := lower_bound env_p (key, 0)
    if it ≠ env_p.length ∧ (env_p.getD it (0, 0)).1 = key then
      (⟨c.m_environments.set env (env_p.eraseIdx it)⟩, ctx_err.CTX_SUCCESS)
    else
      (c, ctx_err.CTX_SUCCESS)

end ContextImpl

/-- An environment is strictly ascending by key: sorted, and no two pairs share
a key. -/
def StrictAscending (v : env_vec_t) : Prop :=
  v.Pairwise (fun a b => a.1 < b.1)

/-- Every environment of the store is strictly ascending by key. -/
def AllAscending (c : ContextImpl) : Prop :=
  ∀ v ∈ c.m_environments, StrictAscending v

/-- The stores that arise from the constructor by calls of `clone_environment`,
`release_environment` (with an id in range, the only defined calls), `set` and
`unset`, with arbitrary arguments. -/
inductive Reachable (CTX_INV_ID : Nat) : ContextImpl → Prop
  | init : Reachable CTX_INV_ID ContextImpl.init
  | clone (c : ContextImpl) (env : Nat) :
      Reachable CTX_INV_ID c → Reachable CTX_INV_ID (c.clone_environment CTX_INV_ID env).1
  | release (c c' : ContextImpl) (env : Nat) :
      Reachable CTX_INV_ID c → c.release_environment env = some c' → Reachable CTX_INV_ID c'
  | set (c : ContextImpl) (env key value : Nat) (g : Bool) :
      Reachable CTX_INV_ID c → Reachable CTX_INV_ID (c.set env key value g).1
  | unset (c : ContextImpl) (env key : Nat) :
      Reachable CTX_INV_ID c → Reachable CTX_INV_ID (c.unset env key).1

/-- The linear scan the specification measures `get` against: the first pair of
the sequence whose key is `key`, from the front. -/
def linear_scan (key : Nat) : env_vec_t → Bool × Nat
  | [] => (false, 0)
  | p :: rest => if p.1 = key then (true, p.2) else linear_scan key rest

/-- The lookup of the specification by linear scan: `(false, 0)` for an unknown
id, otherwise the scan of the environment. -/
def get_by_linear_scan (c : ContextImpl) (env key : Nat) : Bool × Nat :=
  match c.m_environments[env]? with
  | none => (false, 0)
  | some v => linear_scan key v

/-- The stores that arise from the constructor by calls of `clone_environment`,
`set`, `unset` and `release_environment`, where `release_environment` is only
called with an id in range other than the root id 0. -/
inductive RootedReachable (CTX_INV_ID : Nat) : ContextImpl → Prop
  | init : RootedReachable CTX_INV_ID ContextImpl.init
  | clone (c : ContextImpl) (env : Nat) :
      RootedReachable CTX_INV_ID c →
      RootedReachable CTX_INV_ID (c.clone_environment CTX_INV_ID env).1
  | release (c c' : ContextImpl) (env : Nat) :
      RootedReachable CTX_INV_ID c → 0 < env → c.release_environment env = some c' →
      RootedReachable CTX_INV_ID c'
  | set (c : ContextImpl) (env key value : Nat) (g : Bool) :
      RootedReachable CTX_INV_ID c → RootedReachable CTX_INV_ID (c.set env key value g).1
  | unset (c : ContextImpl) (env key : Nat) :
      RootedReachable CTX_INV_ID c → RootedReachable CTX_INV_ID (c.unset env key).1


/-! ## The tagged value

`Variant.h` and `Variant.cpp` are not among the sources; `test_variant.cpp`
exercises them.  The definitions of this section follow the specification of
the tagged value: its kinds, its wire format (a type discriminator byte, then a
fixed-width payload, or a length in variable-length encoding followed by the raw
bytes) and its text parsing.  A byte is a natural number below 256, a buffer of
bytes a list, and a text the list of its characters. -/

/-- Modelled from the spec: the type tags `cali_attr_type`, one for each kind of
tagged value (absent/invalid, signed integer, unsigned integer, double, boolean,
string, address, type); the declaration is not among the sources. -/
inductive cali_attr_type where
  | CALI_TYPE_INV
  | CALI_TYPE_INT
  | CALI_TYPE_UINT
  | CALI_TYPE_DOUBLE
  | CALI_TYPE_BOOL
  | CALI_TYPE_STRING
  | CALI_TYPE_ADDR
  | CALI_TYPE_TYPE
  deriving DecidableEq

/-- Modelled from the spec: the type discriminator byte of a tag on the wire.
The numbering is missing from the sources; the kinds are numbered in the order
the specification lists them. -/
def type_code : cali_attr_type → Nat
  | .CALI_TYPE_INV => 0
  | .CALI_TYPE_INT => 1
  | .CALI_TYPE_UINT => 2
  | .CALI_TYPE_DOUBLE => 3
  | .CALI_TYPE_BOOL => 4
  | .CALI_TYPE_STRING => 5
  | .CALI_TYPE_ADDR => 6
  | .CALI_TYPE_TYPE => 7

/-- Modelled from the spec: the tag a discriminator byte stands for; a byte that
is no discriminator is unrecognized. -/
def type_of_code : Nat → Option cali_attr_type
  | 0 => some .CALI_TYPE_INV
  | 1 => some .CALI_TYPE_INT
  | 2 => some .CALI_TYPE_UINT
  | 3 => some .CALI_TYPE_DOUBLE
  | 4 => some .CALI_TYPE_BOOL
  | 5 => some .CALI_TYPE_STRING
  | 6 => some .CALI_TYPE_ADDR
  | 7 => some .CALI_TYPE_TYPE
  | _ => none

/-- Modelled from the spec: the tagged value `Variant`, missing from the
sources: a type tag with its payload.  A signed integer is a 64-bit integer, an
unsigned integer and an address are 64-bit words or byte blobs, a double is its
64-bit pattern, a string is its bytes. -/
inductive Variant where
  | inv
  | int (v : Int)
  | uint (v : Nat)
  | double (bits : Nat)
  | bool (b : Bool)
  | string (bytes : List Nat)
  | addr (bytes : List Nat)
  | attr_type (t : cali_attr_type)
  deriving DecidableEq

namespace Variant

/-- Modelled from the spec: the accessor `type()`, the discriminant of the
value. -/
def type : Variant → cali_attr_type
  | .inv => .CALI_TYPE_INV
  | .int _ => .CALI_TYPE_INT
  | .uint _ => .CALI_TYPE_UINT
  | .double _ => .CALI_TYPE_DOUBLE
  | .bool _ => .CALI_TYPE_BOOL
  | .string _ => .CALI_TYPE_STRING
  | .addr _ => .CALI_TYPE_ADDR
  | .attr_type _ => .CALI_TYPE_TYPE

/-- Modelled from the spec: the accessor `empty()`, true only for the
absent/invalid kind. -/
def empty (v : Variant) : Bool :=
  decide (v.type = cali_attr_type.CALI_TYPE_INV)

/-- Modelled from the spec: the values the constructors of `Variant`, which are
missing from the sources, can yield: scalars of 64 bits, strings of bytes, and
addresses of exactly 8 bytes. -/
def Constructible : Variant → Prop
  | .inv => True
  | .int v => -(2 ^ 63 : Int) ≤ v ∧ v < 2 ^ 63
  | .uint v => v < 2 ^ 64
  | .double bits => bits < 2 ^ 64
  | .bool _ => True
  | .string bytes => bytes.length < 2 ^ 64 ∧ ∀ b ∈ bytes, b < 256
  | .addr bytes => bytes.length = 8 ∧ ∀ b ∈ bytes, b < 256
  | .attr_type _ => True

end Variant

/-- Modelled from the spec: the fixed-width native encoding, the `n` low bytes
of a word, lowest first. -/
def le_bytes : Nat → Nat → List Nat
  | 0, _ => []
  | n + 1, v => v % 256 :: le_bytes n (v / 256)

/-- Modelled from the spec: the word that a fixed-width native encoding stands
for. -/
def le_value : List Nat → Nat
  | [] => 0
  | b :: rest => b + 256 * le_value rest

/-- Modelled from the spec: the minimal variable-length integer encoding of
lengths and unsigned magnitudes: seven bits to the byte, lowest first, the high
bit set on every byte but the last.  The first argument bounds the number of
bytes. -/
def vlenc_loop : Nat → Nat → List Nat
  | 0, _ => []
  | fuel + 1, n =>
    if n < 128 then [n] else (n % 128 + 128) :: vlenc_loop fuel (n / 128)

/-- Modelled from the spec: the variable-length encoding of a 64-bit word, of at
most ten bytes. -/
def vlenc_u64 (n : Nat) : List Nat :=
  vlenc_loop 10 n

/-- Modelled from the spec: the decoding of the variable-length encoding: the
word and the number of bytes read, or nothing when the buffer ends before the
last byte of the encoding. -/
def vldec_loop : Nat → List Nat → Option (Nat × Nat)
  | 0, _ => none
  | _ + 1, [] => none
  | fuel + 1, b :: rest =>
    if b < 128 then some (b, 1)
    else
      match vldec_loop fuel rest with
      | none => none
      | some (v, used) => some (b - 128 + 128 * v, used + 1)

/-- Modelled from the spec: the decoding of the variable-length encoding of a
64-bit word. -/
def vldec_u64 (buf : List Nat) : Option (Nat × Nat) :=
  vldec_loop 10 buf

namespace Variant

/-- Modelled from the spec: the member `pack`, missing from the sources: the
bytes written to the destination, whose number is the count returned.  The
discriminator byte comes first; a signed integer and a double follow in eight
bytes, a boolean and a type in one, an unsigned magnitude in variable-length
encoding, and a string or a blob as its length in variable-length encoding and
its raw bytes. -/
def pack : Variant → List Nat
  | .inv => [type_code .CALI_TYPE_INV]
  | .int v => type_code .CALI_TYPE_INT :: le_bytes 8 (v % 2 ^ 64).toNat
  | .uint v => type_code .CALI_TYPE_UINT :: vlenc_u64 v
  | .double bits => type_code .CALI_TYPE_DOUBLE :: le_bytes 8 bits
  | .bool b => [type_code .CALI_TYPE_BOOL, if b then 1 else 0]
  | .string bytes => type_code .CALI_TYPE_STRING :: (vlenc_u64 bytes.length ++ bytes)
  | .addr bytes => type_code .CALI_TYPE_ADDR :: (vlenc_u64 bytes.length ++ bytes)
  | .attr_type t => [type_code .CALI_TYPE_TYPE, type_code t]

/-- Modelled from the spec: the payload part of `unpack`, for a recognized
discriminator: the value, the number of payload bytes read and the success
flag. -/
def unpack_payload : cali_attr_type → List Nat → Variant × Nat × Bool
  | .CALI_TYPE_INV, _ => (.inv, 0, true)
  | .CALI_TYPE_INT, rest =>
    if rest.length < 8 then (.inv, 0, false)
    else
      let u := le_value (rest.take 8)
      (.int (if u < 2 ^ 63 then (u : Int) else (u : Int) - 2 ^ 64), 8, true)
  | .CALI_TYPE_UINT, rest =>
    match vldec_u64 rest with
    | none => (.inv, 0, false)
    | some (v, used) => (.uint v, used, true)
  | .CALI_TYPE_DOUBLE, rest =>
    if rest.length < 8 then (.inv, 0, false)
    else (.double (le_value (rest.take 8)), 8, true)
  | .CALI_TYPE_BOOL, rest =>
    match rest with
    | [] => (.inv, 0, false)
    | b :: _ => (.bool (decide (b ≠ 0)), 1, true)
  | .CALI_TYPE_STRING, rest =>
    match vldec_u64 rest with
    | none => (.inv, 0, false)
    | some (n, used) =>
      if (rest.drop used).length < n then (.inv, 0, false)
      else (.string ((rest.drop used).take n), used + n, true)
  | .CALI_TYPE_ADDR, rest =>
    match vldec_u64 rest with
    | none => (.inv, 0, false)
    | some (n, used) =>
      if n ≠ 8 ∨ (rest.drop used).length < n then (.inv, 0, false)
      else (.addr ((rest.drop used).take n), used + n, true)
  | .CALI_TYPE_TYPE, rest =>
    match rest with
    | [] => (.inv, 0, false)
    | b :: _ =>
      match type_of_code b with
      | none => (.inv, 0, false)
      | some t => (.attr_type t, 1, true)

/-- Modelled from the spec: the static member `unpack`, missing from the
sources, on the bytes at the source pointer: the value, the number of bytes by
which the cursor advances and the success flag.  It fails, with the absent value
and the cursor where it was, when the discriminator is unrecognized or the
buffer is truncated. -/
def unpack (buf : List Nat) : Variant × Nat × Bool :=
  match buf with
  | [] => (.inv, 0, false)
  | tag :: rest =>
    match type_of_code tag with
    | none => (.inv, 0, false)
    | some t =>
      match unpack_payload t rest with
      | (v, used, true) => (v, used + 1, true)
      | (_, _, false) => (.inv, 0, false)

end Variant


/-- Modelled from the spec: the run of decimal digits at the front of a text,
read as a number on top of `acc`, and the text after it. -/
def read_digits (acc : Nat) : List Char → Nat × List Char
  | [] => (acc, [])
  | c :: cs =>
    if c.isDigit then read_digits (acc * 10 + (c.toNat - 48)) cs else (acc, c :: cs)

/-- Modelled from the spec: decimal parsing of a magnitude: at least one digit,
then nothing but white space; partial or garbage input fails. -/
def parse_magnitude (s : List Char) : Option Nat :=
  match s with
  | [] => none
  | c :: _ =>
    if c.isDigit then
      if (read_digits 0 s).2.all Char.isWhitespace then some (read_digits 0 s).1 else none
    else none

/-- Modelled from the spec: locale-independent decimal parsing of a signed
integer, white space tolerated before and after. -/
def parse_int (s : List Char) : Option Int :=
  match s.dropWhile Char.isWhitespace with
  | '-' :: rest => (parse_magnitude rest).map (fun n => -(n : Int))
  | '+' :: rest => (parse_magnitude rest).map (fun n => (n : Int))
  | rest => (parse_magnitude rest).map (fun n => (n : Int))

/-- Modelled from the spec: locale-independent decimal parsing of an unsigned
integer, white space tolerated before and after. -/
def parse_uint (s : List Char) : Option Nat :=
  parse_magnitude (s.dropWhile Char.isWhitespace)

/-- Modelled from the spec: parsing of a boolean: `true` and `false` in any
case, and the literal values `1` and `0`. -/
def parse_bool (s : List Char) : Option Bool :=
  if s.map Char.toLower = ['t', 'r', 'u', 'e'] ∨ s = ['1'] then some true
  else if s.map Char.toLower = ['f', 'a', 'l', 's', 'e'] ∨ s = ['0'] then some false
  else none

/-- Modelled from the spec: the tag kind a canonical name stands for
(`cali_string2type`, missing from the sources). -/
def cali_string2type (s : List Char) : Option cali_attr_type :=
  if s = ['i', 'n', 'v'] then some .CALI_TYPE_INV
  else if s = ['i', 'n', 't'] then some .CALI_TYPE_INT
  else if s = ['u', 'i', 'n', 't'] then some .CALI_TYPE_UINT
  else if s = ['d', 'o', 'u', 'b', 'l', 'e'] then some .CALI_TYPE_DOUBLE
  else if s = ['b', 'o', 'o', 'l'] then some .CALI_TYPE_BOOL
  else if s = ['s', 't', 'r', 'i', 'n', 'g'] then some .CALI_TYPE_STRING
  else if s = ['a', 'd', 'd', 'r'] then some .CALI_TYPE_ADDR
  else if s = ['t', 'y', 'p', 'e'] then some .CALI_TYPE_TYPE
  else none

namespace Variant

/-- Modelled from the spec: the static member `from_string`, missing from the
sources: the value parsed from a text for a requested type and the success
flag; on failure the value is the absent one.  The standard floating parse
(`parse_double`, giving the 64-bit pattern) and the reading of an address, which
the specification does not describe (`parse_addr`, giving the bytes), are
parameters. -/
def from_string (parse_double : List Char → Option Nat)
    (parse_addr : List Char → Option (List Nat)) (type : cali_attr_type) (str : String) :
    Variant × Bool :=
  match type with
  | .CALI_TYPE_INV => (.inv, false)
  | .CALI_TYPE_INT =>
    match parse_int str.data with
    | none => (.inv, false)
    | some v => if -(2 ^ 63 : Int) ≤ v ∧ v < 2 ^ 63 then (.int v, true) else (.inv, false)
  | .CALI_TYPE_UINT =>
    match parse_uint str.data with
    | none => (.inv, false)
    | some v => if v < 2 ^ 64 then (.uint v, true) else (.inv, false)
  | .CALI_TYPE_DOUBLE =>
    match parse_double str.data with
    | none => (.inv, false)
    | some bits => (.double bits, true)
  | .CALI_TYPE_BOOL =>
    match parse_bool str.data with
    | none => (.inv, false)
    | some b => (.bool b, true)
  | .CALI_TYPE_STRING => (.string (str.data.map Char.toNat), true)
  | .CALI_TYPE_ADDR =>
    match parse_addr str.data with
    | none => (.inv, false)
    | some bytes => if bytes.length = 8 then (.addr bytes, true) else (.inv, false)
  | .CALI_TYPE_TYPE =>
    match cali_string2type str.data with
    | none => (.inv, false)
    | some t => (.attr_type t, true)

end Variant


/-! ## Lists -/

theorem getD_append_mem_left {A B : env_vec_t} {i : Nat} (d : Nat × Nat) (h : i < A.length) :
    (A ++ B).getD i d ∈ A := by
  rw [List.getD_eq_getElem?_getD, List.getElem?_append_left h, List.getElem?_eq_getElem h]
  exact List.getElem_mem h

theorem getD_append_mem_right {A B : env_vec_t} {i : Nat} (d : Nat × Nat) (h : A.length ≤ i)
    (h2 : i < (A ++ B).length) : (A ++ B).getD i d ∈ B := by
  have h3 : i - A.length < B.length := by
    rw [List.length_append] at h2
    omega
  rw [List.getD_eq_getElem?_getD, List.getElem?_append_right h, List.getElem?_eq_getElem h3]
  exact List.getElem_mem h3

/-! ## Binary search -/

/-- On a vector split into a part below `val` and a part not below it, the
bisection loop ends at the split point, from every range that contains it. -/
theorem lower_bound_loop_split (A B : env_vec_t) (val : Nat × Nat)
    (hA : ∀ a ∈ A, pair_lt a val = true) (hB : ∀ b ∈ B, pair_lt b val = false) :
    ∀ fuel first len, len ≤ fuel → first ≤ A.length → A.length ≤ first + len →
      first + len ≤ (A ++ B).length →
      lower_bound_loop (A ++ B) val fuel first len = A.length := by
  intro fuel
  induction fuel with
  | zero =>
    intro first len h1 h2 h3 _
    simp only [lower_bound_loop]
    omega
  | succ n ih =>
    intro first len h1 h2 h3 h4
    simp only [lower_bound_loop]
    by_cases hl : len = 0
    · rw [if_pos hl]
      omega
    · rw [if_neg hl]
      have hhalf : len / 2 < len := Nat.div_lt_self (Nat.pos_of_ne_zero hl) (by decide)
      by_cases hm : pair_lt ((A ++ B).getD (first + len / 2) (0, 0)) val = true
      · rw [if_pos hm]
        have hlt : first + len / 2 < A.length := by
          by_contra hge
          have hmem := getD_append_mem_right (B := B) (0, 0) (Nat.le_of_not_lt hge) (by omega)
          rw [hB _ hmem] at hm
          exact Bool.false_ne_true hm
        exact ih _ _ (by omega) (by omega) (by omega) (by omega)
      · rw [if_neg hm]
        have hge : A.length ≤ first + len / 2 := by
          by_contra hlt
          exact hm (hA _ (getD_append_mem_left (0, 0) (Nat.lt_of_not_le hlt)))
        exact ih _ _ (by omega) (by omega) (by omega) (by omega)

theorem pair_lt_key (a : Nat × Nat) (key : Nat) :
    pair_lt a (key, 0) = decide (a.1 < key) := by
  simp [pair_lt]

/-- The iterator `lower_bound` returns for `(key, 0)` on a vector whose keys
below `key` all precede the others. -/
theorem lower_bound_split (A B : env_vec_t) (key : Nat)
    (hA : ∀ a ∈ A, a.1 < key) (hB : ∀ b ∈ B, key ≤ b.1) :
    lower_bound (A ++ B) (key, 0) = A.length := by
  unfold lower_bound
  apply lower_bound_loop_split A B (key, 0)
  · intro a ha
    rw [pair_lt_key]
    exact decide_eq_true (hA a ha)
  · intro b hb
    rw [pair_lt_key]
    exact decide_eq_false (Nat.not_lt.mpr (hB b hb))
  · exact Nat.le_refl _
  · exact Nat.zero_le _
  · rw [List.length_append]
    omega
  · omega

/-! ## The operations on a split environment -/

theorem env_at {c : ContextImpl} {env : Nat} {v : env_vec_t}
    (h : c.m_environments[env]? = some v) :
    env < c.m_environments.length ∧ c.m_environments.getD env [] = v := by
  have hlt : env < c.m_environments.length := by
    by_contra hge
    rw [List.getElem?_eq_none (Nat.le_of_not_lt hge)] at h
    exact Option.noConfusion h
  refine ⟨hlt, ?_⟩
  rw [List.getD_eq_getElem?_getD, h]
  rfl

theorem env_at_of_lt {c : ContextImpl} {env : Nat} (h : env < c.m_environments.length) :
    c.m_environments[env]? = some (c.m_environments.getD env []) := by
  rw [List.getD_eq_getElem?_getD, List.getElem?_eq_getElem h]
  rfl

theorem getD_split_head (A B : env_vec_t) (p d : Nat × Nat) :
    (A ++ p :: B).getD A.length d = p := by
  rw [List.getD_eq_getElem?_getD, List.getElem?_append_right (Nat.le_refl _)]
  simp

/-- Lookup of a key that heads the upper part of the split. -/
theorem get_split_found {c : ContextImpl} {env key v : Nat} {A B : env_vec_t}
    (h : c.m_environments[env]? = some (A ++ (key, v) :: B))
    (hA : ∀ a ∈ A, a.1 < key) (hB : ∀ b ∈ B, key < b.1) :
    c.get env key = (true, v) := by
  obtain ⟨hlt, hget⟩ := env_at h
  have hlb : lower_bound (A ++ (key, v) :: B) (key, 0) = A.length := by
    apply lower_bound_split A ((key, v) :: B) key hA
    intro b hb
    rcases List.mem_cons.mp hb with rfl | hb
    · exact Nat.le_refl _
    · exact Nat.le_of_lt (hB b hb)
  unfold ContextImpl.get
  simp only [hget, hlb, getD_split_head]
  simp [hlt]

/-- Lookup of a key that falls strictly between the two parts of the split. -/
theorem get_split_absent {c : ContextImpl} {env key : Nat} {A B : env_vec_t}
    (h : c.m_environments[env]? = some (A ++ B))
    (hA : ∀ a ∈ A, a.1 < key) (hB : ∀ b ∈ B, key < b.1) :
    c.get env key = (false, 0) := by
  obtain ⟨hlt, hget⟩ := env_at h
  have hlb : lower_bound (A ++ B) (key, 0) = A.length :=
    lower_bound_split A B key hA (fun b hb => Nat.le_of_lt (hB b hb))
  unfold ContextImpl.get
  simp only [hget, hlb]
  cases B with
  | nil => simp
  | cons p B =>
    have hp : key < p.1 := hB p (List.mem_cons_self _ _)
    rw [getD_split_head]
    simp [hlt]
    omega

theorem set_at_split (A B : env_vec_t) (p q : Nat × Nat) :
    (A ++ p :: B).set A.length q = A ++ q :: B := by
  induction A with
  | nil => rfl
  | cons a A ih => simp [ih]

theorem eraseIdx_at_split (A B : env_vec_t) (p : Nat × Nat) :
    (A ++ p :: B).eraseIdx A.length = A ++ B := by
  induction A with
  | nil => rfl
  | cons a A ih => simp [ih]

theorem vector_insert_at_split (A B : env_vec_t) (q : Nat × Nat) :
    vector_insert (A ++ B) A.length q = A ++ q :: B := by
  unfold vector_insert
  rw [List.take_left, List.drop_left]

/-- The test of `set` and `unset` on the iterator fails when the key falls
strictly between the two parts of the split. -/
theorem split_absent_test (A B : env_vec_t) (key : Nat) (hB : ∀ b ∈ B, key < b.1) :
    ¬ (A.length ≠ (A ++ B).length ∧ ((A ++ B).getD A.length (0, 0)).1 = key) := by
  cases B with
  | nil => simp
  | cons p B =>
    have hp : key < p.1 := hB p (List.mem_cons_self _ _)
    rw [getD_split_head]
    omega

/-- The test of `set` and `unset` on the iterator holds when the key heads the
upper part of the split. -/
theorem split_found_test (A B : env_vec_t) (key v : Nat) :
    A.length ≠ (A ++ (key, v) :: B).length ∧
      ((A ++ (key, v) :: B).getD A.length (0, 0)).1 = key := by
  rw [getD_split_head]
  simp

theorem lower_bound_split_found (A B : env_vec_t) (key v : Nat)
    (hA : ∀ a ∈ A, a.1 < key) (hB : ∀ b ∈ B, key < b.1) :
    lower_bound (A ++ (key, v) :: B) (key, 0) = A.length := by
  apply lower_bound_split A ((key, v) :: B) key hA
  intro b hb
  rcases List.mem_cons.mp hb with rfl | hb
  · exact Nat.le_refl _
  · exact Nat.le_of_lt (hB b hb)

/-- The call `set` overwrites the value of a key that is bound. -/
theorem set_split_found {c : ContextImpl} {env key v0 : Nat} {A B : env_vec_t} (v : Nat)
    (g : Bool) (h : c.m_environments[env]? = some (A ++ (key, v0) :: B))
    (hA : ∀ a ∈ A, a.1 < key) (hB : ∀ b ∈ B, key < b.1) :
    c.set env key v g =
      (⟨c.m_environments.set env (A ++ (key, v) :: B)⟩, ctx_err.CTX_SUCCESS) := by
  obtain ⟨hlt, hget⟩ := env_at h
  unfold ContextImpl.set
  simp only [hget, lower_bound_split_found A B key v0 hA hB]
  rw [if_neg (not_not.mpr hlt), if_pos (split_found_test A B key v0), getD_split_head,
    set_at_split]

/-- The call `set` inserts a key that is not bound at the split point. -/
theorem set_split_absent {c : ContextImpl} {env key : Nat} {A B : env_vec_t} (v : Nat)
    (g : Bool) (h : c.m_environments[env]? = some (A ++ B))
    (hA : ∀ a ∈ A, a.1 < key) (hB : ∀ b ∈ B, key < b.1) :
    c.set env key v g =
      (⟨c.m_environments.set env (A ++ (key, v) :: B)⟩, ctx_err.CTX_SUCCESS) := by
  obtain ⟨hlt, hget⟩ := env_at h
  unfold ContextImpl.set
  simp only [hget, lower_bound_split A B key hA (fun b hb => Nat.le_of_lt (hB b hb))]
  rw [if_neg (not_not.mpr hlt), if_neg (split_absent_test A B key hB), vector_insert_at_split]

/-- The call `unset` erases the pair of a key that is bound. -/
theorem unset_split_found {c : ContextImpl} {env key v0 : Nat} {A B : env_vec_t}
    (h : c.m_environments[env]? = some (A ++ (key, v0) :: B))
    (hA : ∀ a ∈ A, a.1 < key) (hB : ∀ b ∈ B, key < b.1) :
    c.unset env key = (⟨c.m_environments.set env (A ++ B)⟩, ctx_err.CTX_SUCCESS) := by
  obtain ⟨hlt, hget⟩ := env_at h
  unfold ContextImpl.unset
  simp only [hget, lower_bound_split_found A B key v0 hA hB]
  rw [if_neg (not_not.mpr hlt), if_pos (split_found_test A B key v0), eraseIdx_at_split]

/-- The call `unset` leaves the store alone when the key is not bound. -/
theorem unset_split_absent {c : ContextImpl} {env key : Nat} {A B : env_vec_t}
    (h : c.m_environments[env]? = some (A ++ B))
    (hA : ∀ a ∈ A, a.1 < key) (hB : ∀ b ∈ B, key < b.1) :
    c.unset env key = (c, ctx_err.CTX_SUCCESS) := by
  obtain ⟨hlt, hget⟩ := env_at h
  unfold ContextImpl.unset
  simp only [hget, lower_bound_split A B key hA (fun b hb => Nat.le_of_lt (hB b hb))]
  rw [if_neg (not_not.mpr hlt), if_neg (split_absent_test A B key hB)]

/-! ## Splitting an ascending environment at a key -/

/-- An ascending environment splits at any key into the pairs below the key,
possibly the pair of the key itself, and the pairs above the key. -/
theorem ascending_split {v : env_vec_t} (hv : StrictAscending v) (key : Nat) :
    ∃ A B, (∀ a ∈ A, a.1 < key) ∧ (∀ b ∈ B, key < b.1) ∧
      (v = A ++ B ∨ ∃ v0, v = A ++ (key, v0) :: B) := by
  induction v with
  | nil => exact ⟨[], [], by simp, by simp, Or.inl rfl⟩
  | cons p t ih =>
    have hp : ∀ b ∈ t, p.1 < b.1 := (List.pairwise_cons.mp hv).1
    have ht : StrictAscending t := (List.pairwise_cons.mp hv).2
    rcases Nat.lt_trichotomy p.1 key with hlt | heq | hgt
    · obtain ⟨A, B, hA, hB, hsplit⟩ := ih ht
      refine ⟨p :: A, B, ?_, hB, ?_⟩
      · intro a ha
        rcases List.mem_cons.mp ha with rfl | ha
        · exact hlt
        · exact hA a ha
      · rcases hsplit with h | ⟨v0, h⟩
        · exact Or.inl (by rw [h]; rfl)
        · exact Or.inr ⟨v0, by rw [h]; rfl⟩
    · refine ⟨[], t, by simp, ?_, Or.inr ⟨p.2, ?_⟩⟩
      · intro b hb
        rw [← heq]
        exact hp b hb
      · rw [← heq]
        rfl
    · refine ⟨[], p :: t, by simp, ?_, Or.inl rfl⟩
      intro b hb
      rcases List.mem_cons.mp hb with rfl | hb
      · exact hgt
      · exact Nat.lt_trans hgt (hp b hb)

/-- Two ascending parts with a key strictly between them stay ascending when the
key is put between them. -/
theorem ascending_insert {A B : env_vec_t} {key : Nat} (v : Nat) (hsA : StrictAscending A)
    (hsB : StrictAscending B) (hA : ∀ a ∈ A, a.1 < key) (hB : ∀ b ∈ B, key < b.1) :
    StrictAscending (A ++ (key, v) :: B) := by
  unfold StrictAscending at *
  rw [List.pairwise_append]
  refine ⟨hsA, List.pairwise_cons.mpr ⟨fun b hb => hB b hb, hsB⟩, ?_⟩
  intro a ha b hb
  rcases List.mem_cons.mp hb with rfl | hb
  · exact hA a ha
  · exact Nat.lt_trans (hA a ha) (hB b hb)

/-- Two ascending parts with a key strictly between them are ascending when put
together. -/
theorem ascending_append {A B : env_vec_t} {key : Nat} (hsA : StrictAscending A)
    (hsB : StrictAscending B) (hA : ∀ a ∈ A, a.1 < key) (hB : ∀ b ∈ B, key < b.1) :
    StrictAscending (A ++ B) := by
  unfold StrictAscending at *
  rw [List.pairwise_append]
  exact ⟨hsA, hsB, fun a ha b hb => Nat.lt_trans (hA a ha) (hB b hb)⟩

theorem ascending_parts {A B : env_vec_t} (h : StrictAscending (A ++ B)) :
    StrictAscending A ∧ StrictAscending B := by
  unfold StrictAscending at *
  rw [List.pairwise_append] at h
  exact ⟨h.1, h.2.1⟩

theorem ascending_parts_cons {A B : env_vec_t} {p : Nat × Nat}
    (h : StrictAscending (A ++ p :: B)) : StrictAscending A ∧ StrictAscending B := by
  have h2 := ascending_parts h
  exact ⟨h2.1, (List.pairwise_cons.mp h2.2).2⟩

/-! ## The operations on a store of ascending environments -/

theorem set_same {α : Type} (l : List α) (i : Nat) (x : α) (h : l[i]? = some x) :
    l.set i x = l := by
  apply List.ext_getElem?
  intro j
  by_cases hij : i = j
  · subst hij
    rw [List.getElem?_set, h]
    simp
    by_contra hge
    rw [List.getElem?_eq_none (Nat.le_of_not_lt hge)] at h
    exact Option.noConfusion h
  · rw [List.getElem?_set_ne hij]

/-- What `get`, `set` and `unset` do at a live id and a key, for a store of
ascending environments: the environment is `A ++ B` (key unbound) or
`A ++ (key, v0) :: B` (key bound to `v0`) with `A` below and `B` above the key;
`set` leaves `A ++ (key, v) :: B` there and `unset` leaves `A ++ B`. -/
theorem store_split {c : ContextImpl} (hc : AllAscending c) {env : Nat}
    (hlt : env < c.m_environments.length) (key : Nat) :
    ∃ A B, StrictAscending A ∧ StrictAscending B ∧ (∀ a ∈ A, a.1 < key) ∧
      (∀ b ∈ B, key < b.1) ∧
      (∀ v g, c.set env key v g =
        (⟨c.m_environments.set env (A ++ (key, v) :: B)⟩, ctx_err.CTX_SUCCESS)) ∧
      c.unset env key = (⟨c.m_environments.set env (A ++ B)⟩, ctx_err.CTX_SUCCESS) ∧
      ((c.m_environments[env]? = some (A ++ B) ∧ c.get env key = (false, 0) ∧
          (c.unset env key).1 = c) ∨
        ∃ v0, c.m_environments[env]? = some (A ++ (key, v0) :: B) ∧
          c.get env key = (true, v0)) := by
  have hat := env_at_of_lt hlt
  have hmem : c.m_environments.getD env [] ∈ c.m_environments :=
    List.mem_iff_getElem?.mpr ⟨env, hat⟩
  have hv := hc _ hmem
  obtain ⟨A, B, hA, hB, hsplit⟩ := ascending_split hv key
  rcases hsplit with h | ⟨v0, h⟩
  · rw [h] at hat hv
    obtain ⟨hsA, hsB⟩ := ascending_parts hv
    refine ⟨A, B, hsA, hsB, hA, hB, fun v g => set_split_absent v g hat hA hB, ?_,
      Or.inl ⟨hat, get_split_absent hat hA hB, ?_⟩⟩
    · rw [unset_split_absent hat hA hB, set_same _ _ _ hat]
    · rw [unset_split_absent hat hA hB]
  · rw [h] at hat hv
    obtain ⟨hsA, hsB⟩ := ascending_parts_cons hv
    exact ⟨A, B, hsA, hsB, hA, hB, fun v g => set_split_found v g hat hA hB,
      unset_split_found hat hA hB, Or.inr ⟨v0, hat, get_split_found hat hA hB⟩⟩

theorem getElem?_set_live {c : ContextImpl} {env : Nat} (hlt : env < c.m_environments.length)
    (v : env_vec_t) : (c.m_environments.set env v)[env]? = some v := by
  rw [List.getElem?_set_self hlt]

/-! ## The invariant -/

theorem allAscending_set_env {c : ContextImpl} (hc : AllAscending c) (env : Nat)
    {v : env_vec_t} (hv : StrictAscending v) :
    AllAscending ⟨c.m_environments.set env v⟩ := by
  intro w hw
  rcases List.mem_or_eq_of_mem_set hw with h | h
  · exact hc w h
  · rw [h]
    exact hv

theorem allAscending_init : AllAscending ContextImpl.init := by
  intro v hv
  have h : v = [] := by
    simpa [ContextImpl.init] using hv
  rw [h]
  exact List.Pairwise.nil

theorem allAscending_clone (CTX_INV_ID : Nat) {c : ContextImpl} (hc : AllAscending c)
    (env : Nat) : AllAscending (c.clone_environment CTX_INV_ID env).1 := by
  unfold ContextImpl.clone_environment
  by_cases h : env = CTX_INV_ID ∨ env ≥ c.m_environments.length
  · rw [if_pos h]
    exact hc
  · rw [if_neg h]
    have hlt : env < c.m_environments.length := by
      by_contra hge
      exact h (Or.inr (Nat.le_of_not_lt hge))
    intro v hv
    rcases List.mem_append.mp hv with hv | hv
    · exact hc v hv
    · rw [List.mem_singleton.mp hv]
      exact hc _ (List.mem_iff_getElem?.mpr ⟨env, env_at_of_lt hlt⟩)

theorem allAscending_release {c c' : ContextImpl} (hc : AllAscending c) {env : Nat}
    (h : c.release_environment env = some c') : AllAscending c' := by
  unfold ContextImpl.release_environment at h
  by_cases hlt : env < c.m_environments.length
  · rw [if_pos hlt] at h
    rw [← Option.some.inj h]
    intro v hv
    exact hc v (List.mem_of_mem_eraseIdx hv)
  · rw [if_neg hlt] at h
    exact Option.noConfusion h

theorem allAscending_set {c : ContextImpl} (hc : AllAscending c) (env key v : Nat) (g : Bool) :
    AllAscending (c.set env key v g).1 := by
  by_cases hlt : env < c.m_environments.length
  · obtain ⟨A, B, hsA, hsB, hA, hB, hset, _, _⟩ := store_split hc hlt key
    rw [hset v g]
    exact allAscending_set_env hc env (ascending_insert v hsA hsB hA hB)
  · unfold ContextImpl.set
    rw [if_pos hlt]
    exact hc

theorem allAscending_unset {c : ContextImpl} (hc : AllAscending c) (env key : Nat) :
    AllAscending (c.unset env key).1 := by
  by_cases hlt : env < c.m_environments.length
  · obtain ⟨A, B, hsA, hsB, hA, hB, _, hunset, _⟩ := store_split hc hlt key
    rw [hunset]
    exact allAscending_set_env hc env (ascending_append hsA hsB hA hB)
  · unfold ContextImpl.unset
    rw [if_pos hlt]
    exact hc

theorem reachable_allAscending {CTX_INV_ID : Nat} {c : ContextImpl}
    (h : Reachable CTX_INV_ID c) : AllAscending c := by
  induction h with
  | init => exact allAscending_init
  | clone c env _ ih => exact allAscending_clone CTX_INV_ID ih env
  | release c c' env _ hrel ih => exact allAscending_release ih hrel
  | set c env key value g _ ih => exact allAscending_set ih env key value g
  | unset c env key _ ih => exact allAscending_unset ih env key

/-! ## Reading depends on the environment at the id only -/

theorem get_none {c : ContextImpl} {j : Nat} (h : c.m_environments[j]? = none) (k : Nat) :
    c.get j k = (false, 0) := by
  have hge : ¬ j < c.m_environments.length := by
    intro hlt
    rw [List.getElem?_eq_getElem hlt] at h
    exact Option.noConfusion h
  unfold ContextImpl.get
  rw [if_pos hge]

theorem record_size_none {c : ContextImpl} {j : Nat} (h : c.m_environments[j]? = none) :
    c.record_size j = 0 := by
  have hge : ¬ j < c.m_environments.length := by
    intro hlt
    rw [List.getElem?_eq_getElem hlt] at h
    exact Option.noConfusion h
  unfold ContextImpl.record_size
  rw [if_neg hge]

theorem record_size_some {c : ContextImpl} {j : Nat} {v : env_vec_t}
    (h : c.m_environments[j]? = some v) : c.record_size j = v.length * 2 := by
  obtain ⟨hlt, hget⟩ := env_at h
  unfold ContextImpl.record_size
  rw [if_pos hlt, hget]

theorem get_congr {c c' : ContextImpl} {j j' : Nat}
    (h : c'.m_environments[j']? = c.m_environments[j]?) (k : Nat) :
    c'.get j' k = c.get j k := by
  cases hj : c.m_environments[j]? with
  | none =>
    rw [hj] at h
    rw [get_none h, get_none hj]
  | some v =>
    rw [hj] at h
    obtain ⟨hlt, hget⟩ := env_at hj
    obtain ⟨hlt', hget'⟩ := env_at h
    unfold ContextImpl.get
    rw [if_neg (not_not.mpr hlt), if_neg (not_not.mpr hlt'), hget, hget']

theorem context_size_congr {c c' : ContextImpl} {j j' : Nat}
    (h : c'.m_environments[j']? = c.m_environments[j]?) :
    c'.context_size j' = c.context_size j := by
  unfold ContextImpl.context_size
  cases hj : c.m_environments[j]? with
  | none =>
    rw [hj] at h
    rw [record_size_none h, record_size_none hj]
  | some v =>
    rw [hj] at h
    rw [record_size_some h, record_size_some hj]

/-! ## Lookup and membership -/

/-- In a store of ascending environments, `get` finds exactly the pairs that
occur in the environment. -/
theorem get_iff_mem {c : ContextImpl} (hc : AllAscending c) {e : Nat} {l : env_vec_t}
    (hl : c.m_environments[e]? = some l) (k v : Nat) :
    c.get e k = (true, v) ↔ (k, v) ∈ l := by
  obtain ⟨hlt, _⟩ := env_at hl
  obtain ⟨A, B, _, _, hA, hB, _, _, hcases⟩ := store_split hc hlt k
  have hnotA : ∀ w, (k, w) ∉ A := fun w hw => Nat.lt_irrefl k (hA _ hw)
  have hnotB : ∀ w, (k, w) ∉ B := fun w hw => Nat.lt_irrefl k (hB _ hw)
  rcases hcases with ⟨hat, hget, _⟩ | ⟨v0, hat, hget⟩
  · rw [hl] at hat
    rw [hget, Option.some.inj hat]
    constructor
    · intro h
      exact Bool.noConfusion (congrArg Prod.fst h)
    · intro h
      rcases List.mem_append.mp h with h | h
      · exact absurd h (hnotA v)
      · exact absurd h (hnotB v)
  · rw [hl] at hat
    rw [hget, Option.some.inj hat]
    constructor
    · intro h
      have hv : v0 = v := congrArg Prod.snd h
      rw [← hv]
      exact List.mem_append_right _ (List.mem_cons_self _ _)
    · intro h
      rcases List.mem_append.mp h with h | h
      · exact absurd h (hnotA v)
      · rcases List.mem_cons.mp h with h | h
        · rw [(Prod.mk.inj h).2]
        · exact absurd h (hnotB v)

/-! ## The snapshot loop -/

/-- The count the loop of `get_context` ends with. -/
theorem get_context_loop_count (len : Nat) :
    ∀ (l : env_vec_t) (s : Nat) (buf : buf_t),
      (get_context_loop len l s buf).2 = s + 2 * min l.length ((len - s) / 2) := by
  intro l
  induction l with
  | nil =>
    intro s buf
    simp [get_context_loop]
  | cons p rest ih =>
    intro s buf
    simp only [get_context_loop]
    by_cases h : s + 1 < len
    · rw [if_pos h, ih, List.length_cons]
      omega
    · rw [if_neg h, List.length_cons]
      omega

/-- The loop of `get_context` started at `s` leaves the words below `s` and the
words from the final count on as they were. -/
theorem get_context_loop_frame (len : Nat) :
    ∀ (l : env_vec_t) (s : Nat) (buf : buf_t) (i : Nat),
      (i < s ∨ (get_context_loop len l s buf).2 ≤ i) →
      (get_context_loop len l s buf).1 i = buf i := by
  intro l
  induction l with
  | nil =>
    intro s buf i _
    simp [get_context_loop]
  | cons p rest ih =>
    intro s buf i hi
    simp only [get_context_loop] at hi ⊢
    by_cases h : s + 1 < len
    · rw [if_pos h] at hi ⊢
      have hcount := get_context_loop_count len rest (s + 2)
        (buf_write (buf_write buf s p.1) (s + 1) p.2)
      have hi2 : i < s + 2 ∨
          (get_context_loop len rest (s + 2)
            (buf_write (buf_write buf s p.1) (s + 1) p.2)).2 ≤ i := by
        rcases hi with hi | hi
        · exact Or.inl (by omega)
        · exact Or.inr hi
      rw [ih _ _ i hi2]
      have h1 : i ≠ s + 1 := by omega
      have h2 : i ≠ s := by omega
      simp [buf_write, h1, h2]
    · rw [if_neg h]

/-- With room for all pairs, the loop of `get_context` started at `s` leaves
pair `j` of the environment in the words `s + 2 * j` and `s + 2 * j + 1`. -/
theorem get_context_loop_content (len : Nat) :
    ∀ (l : env_vec_t) (s : Nat) (buf : buf_t), s + 2 * l.length ≤ len →
      ∀ (j : Nat) (p : Nat × Nat), l[j]? = some p →
        (get_context_loop len l s buf).1 (s + 2 * j) = p.1 ∧
          (get_context_loop len l s buf).1 (s + 2 * j + 1) = p.2 := by
  intro l
  induction l with
  | nil =>
    intro s buf _ j p hp
    simp at hp
  | cons q rest ih =>
    intro s buf hroom j p hp
    rw [List.length_cons] at hroom
    simp only [get_context_loop]
    rw [if_pos (by omega)]
    cases j with
    | zero =>
      have hq : q = p := by simpa using hp
      rw [get_context_loop_frame len rest (s + 2) _ (s + 2 * 0) (Or.inl (by omega)),
        get_context_loop_frame len rest (s + 2) _ (s + 2 * 0 + 1) (Or.inl (by omega)), hq]
      simp [buf_write]
    | succ j =>
      have hp2 : rest[j]? = some p := by simpa using hp
      have h := ih (s + 2) (buf_write (buf_write buf s q.1) (s + 1) q.2) (by omega) j p hp2
      have e1 : s + 2 * (j + 1) = s + 2 + 2 * j := by omega
      rw [e1]
      exact h

/-! ## set, get and unset at one key -/

/-- C1: in a reachable store, `set` at a live id returns `CTX_SUCCESS` and a `get`
of the same id and key right afterwards returns `(true, v)`, whether or not the
key was bound before. -/
theorem set_then_get (CTX_INV_ID : Nat) (c : ContextImpl) (hc : Reachable CTX_INV_ID c)
    (e k v : Nat) (g : Bool) (he : e < c.m_environments.length) :
    (c.set e k v g).2 = ctx_err.CTX_SUCCESS ∧ (c.set e k v g).1.get e k = (true, v) := by
  obtain ⟨A, B, _, _, hA, hB, hset, _, _⟩ := store_split (reachable_allAscending hc) he k
  rw [hset v g]
  exact ⟨rfl, get_split_found (getElem?_set_live he _) hA hB⟩

/-- The statement of `set_then_get` at the store that binds key 5 to 7 in the
root environment, overwritten with 9. -/
theorem set_then_get_witness :
    Reachable (2 ^ 64 - 1) (ContextImpl.init.set 0 5 7 false).1 ∧
      0 < (ContextImpl.init.set 0 5 7 false).1.m_environments.length ∧
      ((ContextImpl.init.set 0 5 7 false).1.set 0 5 9 true).2 = ctx_err.CTX_SUCCESS ∧
      ((ContextImpl.init.set 0 5 7 false).1.set 0 5 9 true).1.get 0 5 = (true, 9) :=
  ⟨Reachable.set _ 0 5 7 false Reachable.init, by decide,
    set_then_get (2 ^ 64 - 1) (ContextImpl.init.set 0 5 7 false).1
      (Reachable.set _ 0 5 7 false Reachable.init) 0 5 9 true (by decide)⟩

/-- C4: in a reachable store, `unset` at a live id returns `CTX_SUCCESS` and a
`get` of the same id and key afterwards returns `(false, 0)`; when the key was
not bound, the store is left as it was. -/
theorem unset_then_get (CTX_INV_ID : Nat) (c : ContextImpl) (hc : Reachable CTX_INV_ID c)
    (e k : Nat) (he : e < c.m_environments.length) :
    (c.unset e k).2 = ctx_err.CTX_SUCCESS ∧ (c.unset e k).1.get e k = (false, 0) ∧
      ((c.get e k).1 = false → (c.unset e k).1 = c) := by
  obtain ⟨A, B, _, _, hA, hB, _, hunset, hcases⟩ :=
    store_split (reachable_allAscending hc) he k
  refine ⟨?_, ?_, ?_⟩
  · rw [hunset]
  · rw [hunset]
    exact get_split_absent (getElem?_set_live he _) hA hB
  · intro hget
    rcases hcases with ⟨_, _, hsame⟩ | ⟨v0, _, hfound⟩
    · exact hsame
    · rw [hfound] at hget
      exact Bool.noConfusion hget

/-- The statement of `unset_then_get` at the store that binds key 5 to 7 in the
root environment, for the bound key 5 and for the unbound key 6. -/
theorem unset_then_get_witness :
    (((ContextImpl.init.set 0 5 7 false).1.unset 0 5).2 = ctx_err.CTX_SUCCESS ∧
      ((ContextImpl.init.set 0 5 7 false).1.unset 0 5).1.get 0 5 = (false, 0) ∧
      (((ContextImpl.init.set 0 5 7 false).1.get 0 5).1 = false →
        ((ContextImpl.init.set 0 5 7 false).1.unset 0 5).1 =
          (ContextImpl.init.set 0 5 7 false).1)) ∧
      ((ContextImpl.init.set 0 5 7 false).1.get 0 6).1 = false ∧
      ((ContextImpl.init.set 0 5 7 false).1.unset 0 6).1 =
        (ContextImpl.init.set 0 5 7 false).1 :=
  ⟨unset_then_get (2 ^ 64 - 1) (ContextImpl.init.set 0 5 7 false).1
      (Reachable.set _ 0 5 7 false Reachable.init) 0 5 (by decide),
    by decide,
    (unset_then_get (2 ^ 64 - 1) (ContextImpl.init.set 0 5 7 false).1
      (Reachable.set _ 0 5 7 false Reachable.init) 0 6 (by decide)).2.2 (by decide)⟩

/-- C5: every environment of a reachable store is strictly ascending by key. -/
theorem sortedness_invariant (CTX_INV_ID : Nat) (c : ContextImpl)
    (hc : Reachable CTX_INV_ID c) :
    ∀ v ∈ c.m_environments, List.Pairwise (fun a b : Nat × Nat => a.1 < b.1) v :=
  reachable_allAscending hc

/-- The statement of `sortedness_invariant` at the store reached by binding the
keys 5, 3 and 8 in the root environment, in this order. -/
theorem sortedness_invariant_witness :
    (((ContextImpl.init.set 0 5 7 false).1.set 0 3 9 false).1.set 0 8 1 true).1.m_environments =
        [[(3, 9), (5, 7), (8, 1)]] ∧
      ∀ v ∈ (((ContextImpl.init.set 0 5 7 false).1.set 0 3 9 false).1.set 0 8 1 true).1.m_environments,
        List.Pairwise (fun a b : Nat × Nat => a.1 < b.1) v :=
  ⟨by decide,
    sortedness_invariant (2 ^ 64 - 1) _
      (Reachable.set _ 0 8 1 true (Reachable.set _ 0 3 9 false
        (Reachable.set _ 0 5 7 false Reachable.init)))⟩

/-! ## Status codes -/

/-- C9: `set` and `unset` return `CTX_EINV` exactly when the id is not below the
number of environments and `CTX_SUCCESS` otherwise; with `CTX_EINV` the store is
the one passed in. -/
theorem set_unset_status (c : ContextImpl) (e k v : Nat) (g : Bool) :
    ((c.set e k v g).2 = ctx_err.CTX_EINV ↔ c.m_environments.length ≤ e) ∧
      ((c.set e k v g).2 = ctx_err.CTX_SUCCESS ↔ e < c.m_environments.length) ∧
      ((c.set e k v g).2 = ctx_err.CTX_EINV → (c.set e k v g).1 = c) ∧
      ((c.unset e k).2 = ctx_err.CTX_EINV ↔ c.m_environments.length ≤ e) ∧
      ((c.unset e k).2 = ctx_err.CTX_SUCCESS ↔ e < c.m_environments.length) ∧
      ((c.unset e k).2 = ctx_err.CTX_EINV → (c.unset e k).1 = c) := by
  unfold ContextImpl.set ContextImpl.unset
  by_cases he : e < c.m_environments.length
  · simp only [if_neg (not_not.mpr he)]
    have hle : ¬ c.m_environments.length ≤ e := Nat.not_le.mpr he
    refine ⟨?_, ?_, ?_, ?_, ?_, ?_⟩ <;> split <;> simp [he]
  · simp only [if_pos he]
    have hle : c.m_environments.length ≤ e := Nat.le_of_not_lt he
    simp [he, hle]

/-- The statement of `set_unset_status` at the fresh store, for the unknown id 1:
both calls return `CTX_EINV` and the store is unchanged. -/
theorem set_unset_status_witness :
    (ContextImpl.init.set 1 5 7 false).2 = ctx_err.CTX_EINV ∧
      (ContextImpl.init.set 1 5 7 false).1 = ContextImpl.init ∧
      (ContextImpl.init.unset 1 5).2 = ctx_err.CTX_EINV ∧
      (ContextImpl.init.unset 1 5).1 = ContextImpl.init :=
  have h := set_unset_status ContextImpl.init 1 5 7 false
  ⟨h.1.mpr (by decide), h.2.2.1 (h.1.mpr (by decide)), h.2.2.2.1.mpr (by decide),
    h.2.2.2.2.2 (h.2.2.2.1.mpr (by decide))⟩

/-- C2: what `clone_environment` returns at a live source id: the number of
environments after the call.  The copy of the source is the environment just
below that id; the id returned is not below the number of environments, `get`
finds nothing under it and its `context_size` is 0. -/
theorem clone_environment_returns_size (CTX_INV_ID : Nat) (c : ContextImpl) (e : Nat)
    (he : e < c.m_environments.length) (hne : e ≠ CTX_INV_ID) :
    (c.clone_environment CTX_INV_ID e).2 = c.m_environments.length + 1 ∧
      (c.clone_environment CTX_INV_ID e).1.m_environments.length =
        c.m_environments.length + 1 ∧
      (∀ k, (c.clone_environment CTX_INV_ID e).1.get
          (c.clone_environment CTX_INV_ID e).2 k = (false, 0)) ∧
      (c.clone_environment CTX_INV_ID e).1.context_size
          (c.clone_environment CTX_INV_ID e).2 = 0 ∧
      (∀ k, (c.clone_environment CTX_INV_ID e).1.get c.m_environments.length k =
          c.get e k) ∧
      (c.clone_environment CTX_INV_ID e).1.context_size c.m_environments.length =
        c.context_size e := by
  have h : ¬ (e = CTX_INV_ID ∨ e ≥ c.m_environments.length) := by
    intro h
    rcases h with h | h
    · exact hne h
    · exact Nat.not_le.mpr he h
  have hnew : (c.m_environments ++ [c.m_environments.getD e []])[c.m_environments.length]? =
      c.m_environments[e]? := by
    rw [List.getElem?_append_right (Nat.le_refl _), env_at_of_lt he]
    simp
  have hpast : (c.m_environments ++ [c.m_environments.getD e []])[
      (c.m_environments ++ [c.m_environments.getD e []]).length]? = none :=
    List.getElem?_eq_none (Nat.le_refl _)
  unfold ContextImpl.clone_environment
  rw [if_neg h]
  refine ⟨?_, ?_, ?_, ?_, ?_, ?_⟩
  · simp
  · simp
  · intro k
    exact get_none hpast k
  · exact record_size_none hpast
  · intro k
    exact get_congr hnew k
  · exact context_size_congr hnew

/-- The statement of `clone_environment_returns_size` at the store that binds
key 1 to 5 in the root environment: cloning id 0 returns 2, under which nothing
is found, while the source binds key 1 to 5 and has size 2. -/
theorem clone_environment_returns_size_witness :
    ((ContextImpl.init.set 0 1 5 false).1.clone_environment (2 ^ 64 - 1) 0).2 = 2 ∧
      ((ContextImpl.init.set 0 1 5 false).1.clone_environment (2 ^ 64 - 1) 0).1.m_environments =
        [[(1, 5)], [(1, 5)]] ∧
      ((ContextImpl.init.set 0 1 5 false).1.clone_environment (2 ^ 64 - 1) 0).1.get 2 1 =
        (false, 0) ∧
      ((ContextImpl.init.set 0 1 5 false).1.clone_environment (2 ^ 64 - 1) 0).1.context_size 2 =
        0 ∧
      (ContextImpl.init.set 0 1 5 false).1.get 0 1 = (true, 5) ∧
      (ContextImpl.init.set 0 1 5 false).1.context_size 0 = 2 :=
  have h := clone_environment_returns_size (2 ^ 64 - 1) (ContextImpl.init.set 0 1 5 false).1 0
    (by decide) (by decide)
  ⟨h.1, by decide, h.2.2.1 1, h.2.2.2.1, by decide, by decide⟩

/-- C3, as stated, fails: in the reachable store of three environments whose
third binds key 7 to 9, releasing id 1 leaves id 2 without an environment, so
`get` of id 2 and key 7 goes from `(true, 9)` to `(false, 0)` and the size of
id 2 from 2 to 0. -/
theorem release_environment_shifts_ids :
    Reachable (2 ^ 64 - 1) ⟨[[], [], [(7, 9)]]⟩ ∧
      (⟨[[], [], [(7, 9)]]⟩ : ContextImpl).release_environment 1 = some ⟨[[], [(7, 9)]]⟩ ∧
      (2 ≠ 1 ∧ 2 < (⟨[[], [], [(7, 9)]]⟩ : ContextImpl).m_environments.length) ∧
      (⟨[[], [], [(7, 9)]]⟩ : ContextImpl).get 2 7 = (true, 9) ∧
      (⟨[[], [(7, 9)]]⟩ : ContextImpl).get 2 7 = (false, 0) ∧
      (⟨[[], [], [(7, 9)]]⟩ : ContextImpl).context_size 2 = 2 ∧
      (⟨[[], [(7, 9)]]⟩ : ContextImpl).context_size 2 = 0 := by
  refine ⟨?_, by decide, by decide, by decide, by decide, by decide, by decide⟩
  have h : (⟨[[], [], [(7, 9)]]⟩ : ContextImpl) =
      (((ContextImpl.init.clone_environment (2 ^ 64 - 1) 0).1.clone_environment
        (2 ^ 64 - 1) 0).1.set 2 7 9 false).1 := by decide
  rw [h]
  exact Reachable.set _ 2 7 9 false
    (Reachable.clone _ 0 (Reachable.clone _ 0 Reachable.init))

/-- C3, amended: `release_environment` at an id in range leaves every id below
it as it was (same `get`, same `context_size`), and every id at or above it
afterwards reads what the next higher id read before. -/
theorem release_environment_frame (c c' : ContextImpl) (r : Nat)
    (h : c.release_environment r = some c') (j k : Nat) :
    (j < r → c'.get j k = c.get j k ∧ c'.context_size j = c.context_size j) ∧
      (r ≤ j → c'.get j k = c.get (j + 1) k ∧
        c'.context_size j = c.context_size (j + 1)) := by
  unfold ContextImpl.release_environment at h
  by_cases hlt : r < c.m_environments.length
  · rw [if_pos hlt] at h
    rw [← Option.some.inj h]
    constructor
    · intro hj
      have hsame : (c.m_environments.eraseIdx r)[j]? = c.m_environments[j]? :=
        List.getElem?_eraseIdx_of_lt _ _ _ hj
      exact ⟨get_congr hsame k, context_size_congr hsame⟩
    · intro hj
      have hnext : (c.m_environments.eraseIdx r)[j]? = c.m_environments[j + 1]? :=
        List.getElem?_eraseIdx_of_ge _ _ _ hj
      exact ⟨get_congr hnext k, context_size_congr hnext⟩
  · rw [if_neg hlt] at h
    exact Option.noConfusion h

/-- The statement of `release_environment_frame` at the store of three
environments binding key 3 in the first and key 7 in the third, for the release
of id 1: id 0 reads as before, id 1 reads what id 2 read. -/
theorem release_environment_frame_witness :
    (⟨[[(3, 4)], [], [(7, 9)]]⟩ : ContextImpl).release_environment 1 =
        some ⟨[[(3, 4)], [(7, 9)]]⟩ ∧
      ((⟨[[(3, 4)], [(7, 9)]]⟩ : ContextImpl).get 0 3 =
          (⟨[[(3, 4)], [], [(7, 9)]]⟩ : ContextImpl).get 0 3 ∧
        (⟨[[(3, 4)], [(7, 9)]]⟩ : ContextImpl).context_size 0 =
          (⟨[[(3, 4)], [], [(7, 9)]]⟩ : ContextImpl).context_size 0) ∧
      ((⟨[[(3, 4)], [(7, 9)]]⟩ : ContextImpl).get 1 7 =
          (⟨[[(3, 4)], [], [(7, 9)]]⟩ : ContextImpl).get 2 7 ∧
        (⟨[[(3, 4)], [(7, 9)]]⟩ : ContextImpl).context_size 1 =
          (⟨[[(3, 4)], [], [(7, 9)]]⟩ : ContextImpl).context_size 2) :=
  ⟨by decide,
    (release_environment_frame ⟨[[(3, 4)], [], [(7, 9)]]⟩ ⟨[[(3, 4)], [(7, 9)]]⟩ 1
      (by decide) 0 3).1 (by decide),
    (release_environment_frame ⟨[[(3, 4)], [], [(7, 9)]]⟩ ⟨[[(3, 4)], [(7, 9)]]⟩ 1
      (by decide) 1 7).2 (by decide)⟩

/-! ## Snapshots and sizes -/

/-- C6: at a live id whose environment holds `l.length` pairs, `get_context`
returns `min (2 * l.length) (2 * (len / 2))`, an even count not above `len`, and
every word of the buffer at or above that count is as before the call; at an
unknown id it returns 0 and the buffer is as before. -/
theorem get_context_bounds (c : ContextImpl) (e : Nat) (buf : buf_t) (len : Nat) :
    (∀ l, c.m_environments[e]? = some l →
        (c.get_context e buf len).2 = min (2 * l.length) (2 * (len / 2)) ∧
        (c.get_context e buf len).2 % 2 = 0 ∧
        (c.get_context e buf len).2 ≤ len ∧
        ∀ i, (c.get_context e buf len).2 ≤ i → (c.get_context e buf len).1 i = buf i) ∧
      (c.m_environments.length ≤ e → c.get_context e buf len = (buf, 0)) := by
  constructor
  · intro l hl
    obtain ⟨hlt, hget⟩ := env_at hl
    have hrun : c.get_context e buf len = get_context_loop len l 0 buf := by
      unfold ContextImpl.get_context
      rw [if_neg (not_not.mpr hlt), hget]
    have hcount := get_context_loop_count len l 0 buf
    rw [hrun]
    refine ⟨by omega, by omega, by omega, ?_⟩
    intro i hi
    exact get_context_loop_frame len l 0 buf i (Or.inr hi)
  · intro hge
    unfold ContextImpl.get_context
    rw [if_pos (Nat.not_lt.mpr hge)]

/-- The statement of `get_context_bounds` at the environment `(3, 9), (5, 7)`
with room for three words: one pair is written, the count is 2. -/
theorem get_context_bounds_witness :
    (⟨[[(3, 9), (5, 7)]]⟩ : ContextImpl).m_environments[0]? = some [(3, 9), (5, 7)] ∧
      ((⟨[[(3, 9), (5, 7)]]⟩ : ContextImpl).get_context 0 (fun _ => 0) 3).2 = 2 ∧
      ((⟨[[(3, 9), (5, 7)]]⟩ : ContextImpl).get_context 0 (fun _ => 0) 3).1 0 = 3 ∧
      ((⟨[[(3, 9), (5, 7)]]⟩ : ContextImpl).get_context 0 (fun _ => 0) 3).1 1 = 9 ∧
      ((⟨[[(3, 9), (5, 7)]]⟩ : ContextImpl).get_context 0 (fun _ => 0) 3).1 2 = 0 :=
  have h := (get_context_bounds ⟨[[(3, 9), (5, 7)]]⟩ 0 (fun _ => 0) 3).1 [(3, 9), (5, 7)]
    (by decide)
  ⟨by decide, h.1.trans (by decide), by decide, by decide, by decide⟩

/-- C7: in a reachable store, at a live id and with room for the whole
environment, the keys that `get_context` leaves at the even offsets below the
count are strictly ascending, and `get` returns `(true, v)` for a key exactly
when the key and `v` stand at an even offset below the count and the offset
after it. -/
theorem get_context_content (CTX_INV_ID : Nat) (c : ContextImpl)
    (hc : Reachable CTX_INV_ID c) (e : Nat) (he : e < c.m_environments.length)
    (buf : buf_t) (len : Nat) (hlen : c.context_size e ≤ len) :
    (∀ i j, i < j → 2 * j < (c.get_context e buf len).2 →
        (c.get_context e buf len).1 (2 * i) < (c.get_context e buf len).1 (2 * j)) ∧
      (∀ k v, c.get e k = (true, v) ↔
        ∃ i, i % 2 = 0 ∧ i < (c.get_context e buf len).2 ∧
          (c.get_context e buf len).1 i = k ∧ (c.get_context e buf len).1 (i + 1) = v) := by
  have hall := reachable_allAscending hc
  have hl := env_at_of_lt he
  generalize c.m_environments.getD e [] = l at hl
  obtain ⟨_, hget⟩ := env_at hl
  have hasc : StrictAscending l := hall l (List.mem_iff_getElem?.mpr ⟨e, hl⟩)
  have hroom : 0 + 2 * l.length ≤ len := by
    unfold ContextImpl.context_size at hlen
    rw [record_size_some hl] at hlen
    omega
  have hrun : c.get_context e buf len = get_context_loop len l 0 buf := by
    unfold ContextImpl.get_context
    rw [if_neg (not_not.mpr he), hget]
  have hcount : (get_context_loop len l 0 buf).2 = 2 * l.length := by
    rw [get_context_loop_count]
    omega
  have hcontent : ∀ (j : Nat) (hj : j < l.length),
      (get_context_loop len l 0 buf).1 (2 * j) = l[j].1 ∧
        (get_context_loop len l 0 buf).1 (2 * j + 1) = l[j].2 := by
    intro j hj
    have h := get_context_loop_content len l 0 buf hroom j l[j] (List.getElem?_eq_getElem hj)
    simpa using h
  rw [hrun, hcount]
  constructor
  · intro i j hij hj
    have hj2 : j < l.length := by omega
    have hi2 : i < l.length := by omega
    rw [(hcontent i hi2).1, (hcontent j hj2).1]
    exact (List.pairwise_iff_getElem.mp hasc) i j hi2 hj2 hij
  · intro k v
    rw [get_iff_mem hall hl k v]
    constructor
    · intro hmem
      obtain ⟨j, hj, hjv⟩ := List.getElem_of_mem hmem
      refine ⟨2 * j, by omega, by omega, ?_, ?_⟩
      · rw [(hcontent j hj).1, hjv]
      · rw [(hcontent j hj).2, hjv]
    · rintro ⟨i, heven, hi, hk, hv⟩
      have hj : i / 2 < l.length := by omega
      have hi2 : i = 2 * (i / 2) := by omega
      rw [hi2] at hk hv
      rw [(hcontent _ hj).1] at hk
      rw [(hcontent _ hj).2] at hv
      have hp : l[i / 2] = (k, v) := Prod.ext hk hv
      rw [← hp]
      exact List.getElem_mem hj

/-- The statement of `get_context_content` at the store reached by binding the
keys 5 and 3 in the root environment, with room for four words. -/
theorem get_context_content_witness :
    ((ContextImpl.init.set 0 5 7 false).1.set 0 3 9 false).1.context_size 0 ≤ 4 ∧
      (((ContextImpl.init.set 0 5 7 false).1.set 0 3 9 false).1.get_context 0
        (fun _ => 0) 4).2 = 4 ∧
      ∀ k v, ((ContextImpl.init.set 0 5 7 false).1.set 0 3 9 false).1.get 0 k = (true, v) ↔
        ∃ i, i % 2 = 0 ∧
          i < (((ContextImpl.init.set 0 5 7 false).1.set 0 3 9 false).1.get_context 0
            (fun _ => 0) 4).2 ∧
          (((ContextImpl.init.set 0 5 7 false).1.set 0 3 9 false).1.get_context 0
            (fun _ => 0) 4).1 i = k ∧
          (((ContextImpl.init.set 0 5 7 false).1.set 0 3 9 false).1.get_context 0
            (fun _ => 0) 4).1 (i + 1) = v :=
  ⟨by decide, by decide,
    (get_context_content (2 ^ 64 - 1) ((ContextImpl.init.set 0 5 7 false).1.set 0 3 9 false).1
      (Reachable.set _ 0 3 9 false (Reachable.set _ 0 5 7 false Reachable.init)) 0
      (by decide) (fun _ => 0) 4 (by decide)).2⟩

/-- C8: in a reachable store, `context_size` of a live id is twice the number of
keys for which `get` reports a binding, and `context_size` of an id that is not
live is 0. -/
theorem context_size_counts_keys (CTX_INV_ID : Nat) (c : ContextImpl)
    (hc : Reachable CTX_INV_ID c) (e : Nat) :
    (e < c.m_environments.length →
        c.context_size e = 2 * Set.ncard {k | (c.get e k).1 = true}) ∧
      (c.m_environments.length ≤ e → c.context_size e = 0) := by
  constructor
  · intro he
    have hall := reachable_allAscending hc
    have hl := env_at_of_lt he
    generalize c.m_environments.getD e [] = l at hl
    have hasc : StrictAscending l := hall l (List.mem_iff_getElem?.mpr ⟨e, hl⟩)
    have hnodup : (l.map Prod.fst).Nodup := by
      unfold List.Nodup
      rw [List.pairwise_map]
      exact List.Pairwise.imp (fun h => Nat.ne_of_lt h) hasc
    have hset : {k | (c.get e k).1 = true} = ((l.map Prod.fst).toFinset : Set Nat) := by
      ext k
      simp only [Set.mem_setOf_eq, List.coe_toFinset, List.mem_map]
      constructor
      · intro h
        refine ⟨(k, (c.get e k).2), ?_, rfl⟩
        rw [← get_iff_mem hall hl k (c.get e k).2]
        exact Prod.ext h rfl
      · rintro ⟨p, hp, hk⟩
        have hp2 : (k, p.2) ∈ l := by
          rw [← hk]
          exact hp
        rw [(get_iff_mem hall hl k p.2).mpr hp2]
    rw [hset, Set.ncard_coe_Finset, List.toFinset_card_of_nodup hnodup, List.length_map]
    unfold ContextImpl.context_size
    rw [record_size_some hl]
    omega
  · intro hge
    unfold ContextImpl.context_size
    exact record_size_none (List.getElem?_eq_none hge)

/-- The statement of `context_size_counts_keys` at the store reached by binding
the keys 5, 3 and again 5 in the root environment: the size is 4, and the
unknown id 1 has size 0. -/
theorem context_size_counts_keys_witness :
    (((ContextImpl.init.set 0 5 7 false).1.set 0 3 9 false).1.set 0 5 1 false).1.context_size 0
        = 4 ∧
      (((ContextImpl.init.set 0 5 7 false).1.set 0 3 9 false).1.set 0 5 1 false).1.context_size 0
        = 2 * Set.ncard {k |
          ((((ContextImpl.init.set 0 5 7 false).1.set 0 3 9 false).1.set 0 5 1 false).1.get
            0 k).1 = true} ∧
      (((ContextImpl.init.set 0 5 7 false).1.set 0 3 9 false).1.set 0 5 1 false).1.context_size 1
        = 0 :=
  have h := context_size_counts_keys (2 ^ 64 - 1)
    (((ContextImpl.init.set 0 5 7 false).1.set 0 3 9 false).1.set 0 5 1 false).1
    (Reachable.set _ 0 5 1 false (Reachable.set _ 0 3 9 false
      (Reachable.set _ 0 5 7 false Reachable.init))) 0
  ⟨by decide, h.1 (by decide),
    (context_size_counts_keys (2 ^ 64 - 1)
      (((ContextImpl.init.set 0 5 7 false).1.set 0 3 9 false).1.set 0 5 1 false).1
      (Reachable.set _ 0 5 1 false (Reachable.set _ 0 3 9 false
        (Reachable.set _ 0 5 7 false Reachable.init))) 1).2 (by decide)⟩

/-! ## Binary search against linear scan -/

theorem linear_scan_absent (key : Nat) (l : env_vec_t) (h : ∀ p ∈ l, p.1 ≠ key) :
    linear_scan key l = (false, 0) := by
  induction l with
  | nil => rfl
  | cons p rest ih =>
    simp only [linear_scan]
    rw [if_neg (h p (List.mem_cons_self _ _))]
    exact ih (fun q hq => h q (List.mem_cons_of_mem _ hq))

theorem linear_scan_found (key v : Nat) (A B : env_vec_t) (h : ∀ p ∈ A, p.1 ≠ key) :
    linear_scan key (A ++ (key, v) :: B) = (true, v) := by
  induction A with
  | nil => simp [linear_scan]
  | cons p rest ih =>
    simp only [List.cons_append, linear_scan]
    rw [if_neg (h p (List.mem_cons_self _ _))]
    exact ih (fun q hq => h q (List.mem_cons_of_mem _ hq))

/-- C11: on a store whose environments are strictly ascending by key, `get`
returns what the linear scan returns; it returns `(true, v)` exactly when the
id is live and the pair of the key and `v` occurs in the environment, and
`(false, 0)` when the id is unknown or no pair of the environment has the key. -/
theorem get_refines_linear_scan (c : ContextImpl) (hc : AllAscending c) (e k : Nat) :
    c.get e k = get_by_linear_scan c e k ∧
      (∀ v, c.get e k = (true, v) ↔ ∃ l, c.m_environments[e]? = some l ∧ (k, v) ∈ l) ∧
      ((c.m_environments.length ≤ e ∨
          ∀ l, c.m_environments[e]? = some l → ∀ p ∈ l, p.1 ≠ k) →
        c.get e k = (false, 0)) := by
  by_cases he : e < c.m_environments.length
  · obtain ⟨A, B, _, _, hA, hB, _, _, hcases⟩ := store_split hc he k
    have hl := env_at_of_lt he
    have hnA : ∀ p ∈ A, p.1 ≠ k := fun p hp => Nat.ne_of_lt (hA p hp)
    have hnB : ∀ p ∈ B, p.1 ≠ k := fun p hp => Nat.ne_of_gt (hB p hp)
    refine ⟨?_, ?_, ?_⟩
    · unfold get_by_linear_scan
      rcases hcases with ⟨hat, hget, _⟩ | ⟨v0, hat, hget⟩
      · rw [hat, hget]
        symm
        apply linear_scan_absent
        intro p hp
        rcases List.mem_append.mp hp with hp | hp
        · exact hnA p hp
        · exact hnB p hp
      · rw [hat, hget]
        exact (linear_scan_found k v0 A B hnA).symm
    · intro v
      rw [get_iff_mem hc hl k v]
      constructor
      · intro hmem
        exact ⟨_, hl, hmem⟩
      · rintro ⟨l, hl2, hmem⟩
        rw [hl] at hl2
        rw [Option.some.inj hl2]
        exact hmem
    · intro h
      rcases h with h | h
      · exact absurd he (Nat.not_lt.mpr h)
      · rcases hcases with ⟨_, hget, _⟩ | ⟨v0, hat, _⟩
        · exact hget
        · exact absurd rfl (h _ hat (k, v0) (List.mem_append_right _ (List.mem_cons_self _ _)))
  · have hnone : c.m_environments[e]? = none := List.getElem?_eq_none (Nat.le_of_not_lt he)
    refine ⟨?_, ?_, ?_⟩
    · unfold get_by_linear_scan
      rw [hnone, get_none hnone]
    · intro v
      rw [get_none hnone]
      constructor
      · intro h
        exact Bool.noConfusion (congrArg Prod.fst h)
      · rintro ⟨l, hl, _⟩
        rw [hnone] at hl
        exact Option.noConfusion hl
    · intro _
      exact get_none hnone k

/-- The statement of `get_refines_linear_scan` at the ascending environment
`(3, 0), (5, 7)`: key 5 is found with 7, key 4 (next to a stored value 0) and
key 9 (above every stored key) are not found, nor is anything under id 1. -/
theorem get_refines_linear_scan_witness :
    AllAscending ⟨[[(3, 0), (5, 7)]]⟩ ∧
      (⟨[[(3, 0), (5, 7)]]⟩ : ContextImpl).get 0 5 = (true, 7) ∧
      (⟨[[(3, 0), (5, 7)]]⟩ : ContextImpl).get 0 4 =
        get_by_linear_scan ⟨[[(3, 0), (5, 7)]]⟩ 0 4 ∧
      (⟨[[(3, 0), (5, 7)]]⟩ : ContextImpl).get 0 9 = (false, 0) ∧
      (⟨[[(3, 0), (5, 7)]]⟩ : ContextImpl).get 1 5 = (false, 0) :=
  have hasc : AllAscending ⟨[[(3, 0), (5, 7)]]⟩ := by
    intro v hv
    rw [List.mem_singleton.mp hv]
    unfold StrictAscending
    decide
  ⟨hasc,
    ((get_refines_linear_scan ⟨[[(3, 0), (5, 7)]]⟩ hasc 0 5).2.1 7).mpr
      ⟨[(3, 0), (5, 7)], by decide, by decide⟩,
    (get_refines_linear_scan ⟨[[(3, 0), (5, 7)]]⟩ hasc 0 4).1,
    (get_refines_linear_scan ⟨[[(3, 0), (5, 7)]]⟩ hasc 0 9).2.2
      (Or.inr (fun l hl p hp => by
        have hl2 : l = [(3, 0), (5, 7)] := (Option.some.inj hl).symm
        subst hl2
        rcases List.mem_cons.mp hp with rfl | hp
        · decide
        · rcases List.mem_cons.mp hp with rfl | hp
          · decide
          · exact absurd hp (List.not_mem_nil _))),
    (get_refines_linear_scan ⟨[[(3, 0), (5, 7)]]⟩ hasc 1 5).2.2 (Or.inl (by decide))⟩

/-! ## The global flag -/

/-- C14: the flag of `set` has no effect: with `true` and with `false` the call
returns the same status and the same store, for every store, id, key and
value. -/
theorem set_global_flag_irrelevant (c : ContextImpl) (e k v : Nat) :
    c.set e k v true = c.set e k v false :=
  rfl


/-! ## What set and unset leave alone -/

theorem set_frame_env (c : ContextImpl) (e k v : Nat) (g : Bool) {j : Nat} (hj : j ≠ e) :
    (c.set e k v g).1.m_environments[j]? = c.m_environments[j]? := by
  unfold ContextImpl.set
  split
  · rfl
  · dsimp only
    split
    · exact List.getElem?_set_ne (Ne.symm hj)
    · exact List.getElem?_set_ne (Ne.symm hj)

theorem unset_frame_env (c : ContextImpl) (e k : Nat) {j : Nat} (hj : j ≠ e) :
    (c.unset e k).1.m_environments[j]? = c.m_environments[j]? := by
  unfold ContextImpl.unset
  split
  · rfl
  · dsimp only
    split
    · exact List.getElem?_set_ne (Ne.symm hj)
    · rfl

theorem set_length (c : ContextImpl) (e k v : Nat) (g : Bool) :
    (c.set e k v g).1.m_environments.length = c.m_environments.length := by
  unfold ContextImpl.set
  split
  · rfl
  · dsimp only
    split
    · exact List.length_set _ _ _
    · exact List.length_set _ _ _

theorem unset_length (c : ContextImpl) (e k : Nat) :
    (c.unset e k).1.m_environments.length = c.m_environments.length := by
  unfold ContextImpl.unset
  split
  · rfl
  · dsimp only
    split
    · exact List.length_set _ _ _
    · rfl

theorem get_cases (c : ContextImpl) (e k : Nat) :
    c.get e k = (false, 0) ∨ ∃ w, c.get e k = (true, w) := by
  unfold ContextImpl.get
  split
  · exact Or.inl rfl
  · dsimp only
    split
    · exact Or.inl rfl
    · exact Or.inr ⟨_, rfl⟩

/-- Two lookups in ascending stores agree when the environments they read hold
the same pairs under the key. -/
theorem get_eq_of_mem_iff {c c' : ContextImpl} (hc : AllAscending c) (hc' : AllAscending c')
    {e e' : Nat} {l l' : env_vec_t} (hl : c.m_environments[e]? = some l)
    (hl' : c'.m_environments[e']? = some l') (k : Nat)
    (h : ∀ w, (k, w) ∈ l' ↔ (k, w) ∈ l) : c'.get e' k = c.get e k := by
  rcases get_cases c e k with h0 | ⟨w, hw⟩
  · rcases get_cases c' e' k with h0' | ⟨w', hw'⟩
    · rw [h0, h0']
    · have hmem := (h w').mp ((get_iff_mem hc' hl' k w').mp hw')
      rw [(get_iff_mem hc hl k w').mpr hmem] at h0
      exact Bool.noConfusion (congrArg Prod.fst h0)
  · have hmem := (h w).mpr ((get_iff_mem hc hl k w).mp hw)
    rw [hw, (get_iff_mem hc' hl' k w).mpr hmem]

theorem mem_insert_split (A B : env_vec_t) (k v : Nat) (hA : ∀ a ∈ A, a.1 ≠ k)
    (hB : ∀ b ∈ B, b.1 ≠ k) (p : Nat × Nat) :
    p ∈ A ++ (k, v) :: B ↔ (p = (k, v) ∨ (p.1 ≠ k ∧ p ∈ A ++ B)) := by
  simp only [List.mem_append, List.mem_cons]
  constructor
  · rintro (h | h | h)
    · exact Or.inr ⟨hA p h, Or.inl h⟩
    · exact Or.inl h
    · exact Or.inr ⟨hB p h, Or.inr h⟩
  · rintro (h | ⟨_, h | h⟩)
    · exact Or.inr (Or.inl h)
    · exact Or.inl h
    · exact Or.inr (Or.inr h)

theorem mem_erase_split (A B : env_vec_t) (k v0 : Nat) (hA : ∀ a ∈ A, a.1 ≠ k)
    (hB : ∀ b ∈ B, b.1 ≠ k) (p : Nat × Nat) :
    p ∈ A ++ B ↔ (p.1 ≠ k ∧ p ∈ A ++ (k, v0) :: B) := by
  simp only [List.mem_append, List.mem_cons]
  constructor
  · rintro (h | h)
    · exact ⟨hA p h, Or.inl h⟩
    · exact ⟨hB p h, Or.inr (Or.inr h)⟩
  · rintro ⟨hne, h | h | h⟩
    · exact Or.inl h
    · exact absurd (congrArg Prod.fst h) hne
    · exact Or.inr h

theorem mem_absent_split (A B : env_vec_t) (k : Nat) (hA : ∀ a ∈ A, a.1 ≠ k)
    (hB : ∀ b ∈ B, b.1 ≠ k) (p : Nat × Nat) :
    p ∈ A ++ B ↔ (p.1 ≠ k ∧ p ∈ A ++ B) := by
  constructor
  · intro h
    refine ⟨?_, h⟩
    rcases List.mem_append.mp h with h | h
    · exact hA p h
    · exact hB p h
  · intro h
    exact h.2

/-- The environment `set` leaves at a live id of an ascending store: ascending,
and holding the new pair together with the old pairs of the other keys. -/
theorem set_env_spec {c : ContextImpl} (hc : AllAscending c) {e : Nat} {l : env_vec_t}
    (hl : c.m_environments[e]? = some l) (k v : Nat) (g : Bool) :
    ∃ l2, (c.set e k v g).1 = ⟨c.m_environments.set e l2⟩ ∧ StrictAscending l2 ∧
      ∀ p, p ∈ l2 ↔ (p = (k, v) ∨ (p.1 ≠ k ∧ p ∈ l)) := by
  obtain ⟨he, _⟩ := env_at hl
  obtain ⟨A, B, hsA, hsB, hA, hB, hset, _, hcases⟩ := store_split hc he k
  have hnA : ∀ p ∈ A, p.1 ≠ k := fun p hp => Nat.ne_of_lt (hA p hp)
  have hnB : ∀ p ∈ B, p.1 ≠ k := fun p hp => Nat.ne_of_gt (hB p hp)
  refine ⟨A ++ (k, v) :: B, by rw [hset v g], ascending_insert v hsA hsB hA hB, ?_⟩
  intro p
  rw [mem_insert_split A B k v hnA hnB p]
  rcases hcases with ⟨hat, _, _⟩ | ⟨v0, hat, _⟩
  · rw [hl] at hat
    rw [Option.some.inj hat]
  · rw [hl] at hat
    rw [Option.some.inj hat, mem_erase_split A B k v0 hnA hnB p]
    constructor
    · rintro (h | ⟨h1, h2⟩)
      · exact Or.inl h
      · exact Or.inr ⟨h1, h2.2⟩
    · rintro (h | ⟨h1, h2⟩)
      · exact Or.inl h
      · exact Or.inr ⟨h1, h1, h2⟩

/-- The environment `unset` leaves at a live id of an ascending store:
ascending, and holding the old pairs of the other keys. -/
theorem unset_env_spec {c : ContextImpl} (hc : AllAscending c) {e : Nat} {l : env_vec_t}
    (hl : c.m_environments[e]? = some l) (k : Nat) :
    ∃ l2, (c.unset e k).1 = ⟨c.m_environments.set e l2⟩ ∧ StrictAscending l2 ∧
      ∀ p, p ∈ l2 ↔ (p.1 ≠ k ∧ p ∈ l) := by
  obtain ⟨he, _⟩ := env_at hl
  obtain ⟨A, B, hsA, hsB, hA, hB, _, hunset, hcases⟩ := store_split hc he k
  have hnA : ∀ p ∈ A, p.1 ≠ k := fun p hp => Nat.ne_of_lt (hA p hp)
  have hnB : ∀ p ∈ B, p.1 ≠ k := fun p hp => Nat.ne_of_gt (hB p hp)
  refine ⟨A ++ B, by rw [hunset], ascending_append hsA hsB hA hB, ?_⟩
  intro p
  rcases hcases with ⟨hat, _, _⟩ | ⟨v0, hat, _⟩
  · rw [hl] at hat
    rw [Option.some.inj hat]
    exact mem_absent_split A B k hnA hnB p
  · rw [hl] at hat
    rw [Option.some.inj hat]
    exact mem_erase_split A B k v0 hnA hnB p

/-- Two ascending environments that hold the same pairs are equal. -/
theorem ascending_ext {l1 l2 : env_vec_t} (h1 : StrictAscending l1) (h2 : StrictAscending l2)
    (h : ∀ p, p ∈ l1 ↔ p ∈ l2) : l1 = l2 := by
  have hne : ∀ a b : Nat × Nat, a.1 < b.1 → a ≠ b := by
    intro a b hab heq
    rw [heq] at hab
    exact Nat.lt_irrefl _ hab
  have d1 : l1.Nodup := List.Pairwise.imp (fun {a b} hab => hne a b hab) h1
  have d2 : l2.Nodup := List.Pairwise.imp (fun {a b} hab => hne a b hab) h2
  have hperm : l1.Perm l2 := (List.perm_ext_iff_of_nodup d1 d2).mpr h
  haveI : IsAntisymm (Nat × Nat) (fun a b => a.1 < b.1) :=
    ⟨fun a b hab hba => absurd hab (Nat.lt_asymm hba)⟩
  exact List.eq_of_perm_of_sorted hperm h1 h2


/-! ## Frame, commutation and round trip of set and unset -/

/-- C17: in a reachable store, `set` and `unset` at a live id and a key leave
`get` as it was for every other pair of id and key, leave the number of
environments as it was, and leave every other environment identical. -/
theorem set_unset_frame (CTX_INV_ID : Nat) (c : ContextImpl) (hc : Reachable CTX_INV_ID c)
    (e k v : Nat) (g : Bool) (he : e < c.m_environments.length) :
    (∀ e2 k2, (e2 ≠ e ∨ k2 ≠ k) →
        (c.set e k v g).1.get e2 k2 = c.get e2 k2 ∧
          (c.unset e k).1.get e2 k2 = c.get e2 k2) ∧
      (c.set e k v g).1.m_environments.length = c.m_environments.length ∧
      (c.unset e k).1.m_environments.length = c.m_environments.length ∧
      (∀ e2, e2 ≠ e →
        (c.set e k v g).1.m_environments[e2]? = c.m_environments[e2]? ∧
          (c.unset e k).1.m_environments[e2]? = c.m_environments[e2]?) := by
  have hall := reachable_allAscending hc
  refine ⟨?_, set_length c e k v g, unset_length c e k,
    fun e2 h2 => ⟨set_frame_env c e k v g h2, unset_frame_env c e k h2⟩⟩
  intro e2 k2 hne
  by_cases h2 : e2 = e
  · subst h2
    have hk : k2 ≠ k := by
      rcases hne with h | h
      · exact absurd rfl h
      · exact h
    have hl := env_at_of_lt he
    constructor
    · obtain ⟨l2, hstore, _, hmem⟩ := set_env_spec hall hl k v g
      have hall2 := allAscending_set hall e2 k v g
      have hl2 : (c.set e2 k v g).1.m_environments[e2]? = some l2 := by
        rw [hstore]
        exact List.getElem?_set_self he
      apply get_eq_of_mem_iff hall hall2 hl hl2 k2
      intro w
      rw [hmem]
      constructor
      · rintro (h | ⟨_, h⟩)
        · exact absurd (congrArg Prod.fst h) hk
        · exact h
      · intro h
        exact Or.inr ⟨hk, h⟩
    · obtain ⟨l2, hstore, _, hmem⟩ := unset_env_spec hall hl k
      have hall2 := allAscending_unset hall e2 k
      have hl2 : (c.unset e2 k).1.m_environments[e2]? = some l2 := by
        rw [hstore]
        exact List.getElem?_set_self he
      apply get_eq_of_mem_iff hall hall2 hl hl2 k2
      intro w
      rw [hmem]
      constructor
      · intro h
        exact h.2
      · intro h
        exact ⟨hk, h⟩
  · exact ⟨get_congr (set_frame_env c e k v g h2) k2,
      get_congr (unset_frame_env c e k h2) k2⟩

/-- The statement of `set_unset_frame` at the store of two environments
`(3, 9), (5, 7)` and `(5, 1)`, reached from the constructor, for `set` and
`unset` of key 5 at id 0: key 3 of id 0 and key 5 of id 1 read as before. -/
theorem set_unset_frame_witness :
    (((ContextImpl.init.set 0 5 1 false).1.clone_environment (2 ^ 64 - 1) 0).1.set 0 5 7
          false).1.set 0 3 9 false = (⟨[[(3, 9), (5, 7)], [(5, 1)]]⟩, ctx_err.CTX_SUCCESS) ∧
      ((⟨[[(3, 9), (5, 7)], [(5, 1)]]⟩ : ContextImpl).set 0 5 2 true).1.get 0 3 = (true, 9) ∧
      ((⟨[[(3, 9), (5, 7)], [(5, 1)]]⟩ : ContextImpl).unset 0 5).1.get 1 5 =
        (⟨[[(3, 9), (5, 7)], [(5, 1)]]⟩ : ContextImpl).get 1 5 :=
  have hstore : (⟨[[(3, 9), (5, 7)], [(5, 1)]]⟩ : ContextImpl) =
      ((((ContextImpl.init.set 0 5 1 false).1.clone_environment (2 ^ 64 - 1) 0).1.set 0 5 7
        false).1.set 0 3 9 false).1 := by decide
  have hreach : Reachable (2 ^ 64 - 1) ⟨[[(3, 9), (5, 7)], [(5, 1)]]⟩ := by
    rw [hstore]
    exact Reachable.set _ 0 3 9 false (Reachable.set _ 0 5 7 false
      (Reachable.clone _ 0 (Reachable.set _ 0 5 1 false Reachable.init)))
  have h := set_unset_frame (2 ^ 64 - 1) ⟨[[(3, 9), (5, 7)], [(5, 1)]]⟩ hreach 0 5 2 true
    (by decide)
  ⟨by decide, (h.1 0 3 (Or.inr (by decide))).1.trans (by decide),
    (h.1 1 5 (Or.inl (by decide))).2⟩

/-- C18: in a reachable store, two calls of `set` at the same live id with
different keys give the same store in either order, and so the same snapshot. -/
theorem set_order_independent (CTX_INV_ID : Nat) (c : ContextImpl)
    (hc : Reachable CTX_INV_ID c) (e k1 k2 v1 v2 : Nat) (g1 g2 : Bool)
    (he : e < c.m_environments.length) (hne : k1 ≠ k2) :
    ((c.set e k1 v1 g1).1.set e k2 v2 g2).1 = ((c.set e k2 v2 g2).1.set e k1 v1 g1).1 ∧
      ∀ j buf len, ((c.set e k1 v1 g1).1.set e k2 v2 g2).1.get_context j buf len =
        ((c.set e k2 v2 g2).1.set e k1 v1 g1).1.get_context j buf len := by
  have hall := reachable_allAscending hc
  have hl := env_at_of_lt he
  have key : ((c.set e k1 v1 g1).1.set e k2 v2 g2).1 =
      ((c.set e k2 v2 g2).1.set e k1 v1 g1).1 := by
    obtain ⟨l1, hs1, ha1, hm1⟩ := set_env_spec hall hl k1 v1 g1
    obtain ⟨l2, hs2, ha2, hm2⟩ := set_env_spec hall hl k2 v2 g2
    have hall1 : AllAscending ⟨c.m_environments.set e l1⟩ := allAscending_set_env hall e ha1
    have hall2 : AllAscending ⟨c.m_environments.set e l2⟩ := allAscending_set_env hall e ha2
    have hl1 : (⟨c.m_environments.set e l1⟩ : ContextImpl).m_environments[e]? = some l1 :=
      List.getElem?_set_self he
    have hl2 : (⟨c.m_environments.set e l2⟩ : ContextImpl).m_environments[e]? = some l2 :=
      List.getElem?_set_self he
    obtain ⟨l12, hs12, ha12, hm12⟩ := set_env_spec hall1 hl1 k2 v2 g2
    obtain ⟨l21, hs21, ha21, hm21⟩ := set_env_spec hall2 hl2 k1 v1 g1
    rw [hs1, hs2, hs12, hs21]
    have heq : l12 = l21 := by
      apply ascending_ext ha12 ha21
      intro p
      rw [hm12, hm21, hm1, hm2]
      have f1 : p = (k1, v1) → p.1 ≠ k2 := by
        intro h
        rw [h]
        exact hne
      have f2 : p = (k2, v2) → p.1 ≠ k1 := by
        intro h
        rw [h]
        exact Ne.symm hne
      tauto
    simp only [List.set_set, heq]
  exact ⟨key, fun j buf len => by rw [key]⟩

/-- The statement of `set_order_independent` at the store that binds key 5 in
the root environment, for the keys 8 and 3: both orders give
`(3, 9), (5, 7), (8, 1)`. -/
theorem set_order_independent_witness :
    (((ContextImpl.init.set 0 5 7 false).1.set 0 8 1 false).1.set 0 3 9 true).1 =
        (((ContextImpl.init.set 0 5 7 false).1.set 0 3 9 true).1.set 0 8 1 false).1 ∧
      (((ContextImpl.init.set 0 5 7 false).1.set 0 8 1 false).1.set 0 3 9 true).1 =
        ⟨[[(3, 9), (5, 7), (8, 1)]]⟩ :=
  ⟨(set_order_independent (2 ^ 64 - 1) (ContextImpl.init.set 0 5 7 false).1
      (Reachable.set _ 0 5 7 false Reachable.init) 0 8 3 1 9 false true (by decide)
      (by decide)).1,
    by decide⟩

/-- C19: in a reachable store, `set` of a key that is not bound at a live id
followed by `unset` of the key gives back the store, and with it every
`context_size`. -/
theorem set_unset_round_trip (CTX_INV_ID : Nat) (c : ContextImpl)
    (hc : Reachable CTX_INV_ID c) (e k v : Nat) (g : Bool)
    (he : e < c.m_environments.length) (hk : (c.get e k).1 = false) :
    ((c.set e k v g).1.unset e k).1 = c ∧
      ∀ j, ((c.set e k v g).1.unset e k).1.context_size j = c.context_size j := by
  have hall := reachable_allAscending hc
  have key : ((c.set e k v g).1.unset e k).1 = c := by
    obtain ⟨A, B, _, _, hA, hB, hset, _, hcases⟩ := store_split hall he k
    rcases hcases with ⟨hat, _, _⟩ | ⟨v0, _, hfound⟩
    · rw [hset v g]
      have hat2 : (⟨c.m_environments.set e (A ++ (k, v) :: B)⟩ :
          ContextImpl).m_environments[e]? = some (A ++ (k, v) :: B) :=
        List.getElem?_set_self he
      rw [unset_split_found hat2 hA hB]
      simp only [List.set_set]
      rw [set_same _ _ _ hat]
    · rw [hfound] at hk
      exact Bool.noConfusion hk
  exact ⟨key, fun j => by rw [key]⟩

/-- The statement of `set_unset_round_trip` at the store that binds the keys 3
and 8 in the root environment, for the unbound key 5. -/
theorem set_unset_round_trip_witness :
    (((ContextImpl.init.set 0 3 9 false).1.set 0 8 1 false).1.get 0 5).1 = false ∧
      (((ContextImpl.init.set 0 3 9 false).1.set 0 8 1 false).1.set 0 5 7 false).1 =
        ⟨[[(3, 9), (5, 7), (8, 1)]]⟩ ∧
      ((((ContextImpl.init.set 0 3 9 false).1.set 0 8 1 false).1.set 0 5 7 false).1.unset
        0 5).1 = ((ContextImpl.init.set 0 3 9 false).1.set 0 8 1 false).1 :=
  ⟨by decide, by decide,
    (set_unset_round_trip (2 ^ 64 - 1) ((ContextImpl.init.set 0 3 9 false).1.set 0 8 1 false).1
      (Reachable.set _ 0 8 1 false (Reachable.set _ 0 3 9 false Reachable.init)) 0 5 7 false
      (by decide) (by decide)).1⟩


/-! ## The clone and its source -/

/-- C12: after `clone_environment` of a live id `e` other than the sentinel,
with `c1` the store and `e2` the id it returns, `set` and `unset` at `e` leave
`get` of `e2` as it was and `set` and `unset` at `e2` leave `get` of `e` as it
was, for all keys and values.  The same holds with the position of the copy,
the old number of environments, in the place of `e2`. -/
theorem clone_no_aliasing (CTX_INV_ID : Nat) (c c1 : ContextImpl) (e e2 : Nat)
    (he : e < c.m_environments.length) (hne : e ≠ CTX_INV_ID)
    (hclone : c.clone_environment CTX_INV_ID e = (c1, e2)) (k k2 v : Nat) (g : Bool) :
    ((c1.set e k2 v g).1.get e2 k = c1.get e2 k ∧
        (c1.unset e k2).1.get e2 k = c1.get e2 k ∧
        (c1.set e2 k2 v g).1.get e k = c1.get e k ∧
        (c1.unset e2 k2).1.get e k = c1.get e k) ∧
      ((c1.set e k2 v g).1.get c.m_environments.length k =
          c1.get c.m_environments.length k ∧
        (c1.unset e k2).1.get c.m_environments.length k =
          c1.get c.m_environments.length k ∧
        (c1.set c.m_environments.length k2 v g).1.get e k = c1.get e k ∧
        (c1.unset c.m_environments.length k2).1.get e k = c1.get e k) := by
  have h : ¬ (e = CTX_INV_ID ∨ e ≥ c.m_environments.length) := by
    intro h
    rcases h with h | h
    · exact hne h
    · exact Nat.not_le.mpr he h
  unfold ContextImpl.clone_environment at hclone
  rw [if_neg h] at hclone
  have hid : e2 = c.m_environments.length + 1 := by
    rw [← (Prod.mk.inj hclone).2]
    simp
  have h1 : e2 ≠ e := by omega
  have h2 : c.m_environments.length ≠ e := by omega
  exact ⟨⟨get_congr (set_frame_env c1 e k2 v g h1) k,
      get_congr (unset_frame_env c1 e k2 h1) k,
      get_congr (set_frame_env c1 e2 k2 v g (Ne.symm h1)) k,
      get_congr (unset_frame_env c1 e2 k2 (Ne.symm h1)) k⟩,
    ⟨get_congr (set_frame_env c1 e k2 v g h2) k,
      get_congr (unset_frame_env c1 e k2 h2) k,
      get_congr (set_frame_env c1 c.m_environments.length k2 v g (Ne.symm h2)) k,
      get_congr (unset_frame_env c1 c.m_environments.length k2 (Ne.symm h2)) k⟩⟩

/-- The statement of `clone_no_aliasing` at the store that binds key 5 to 7 in
the root environment, cloned from id 0: the copy sits at id 1, the id returned
is 2, and a `set` of key 5 at id 0 leaves key 5 of the copy at 7. -/
theorem clone_no_aliasing_witness :
    (ContextImpl.init.set 0 5 7 false).1.clone_environment (2 ^ 64 - 1) 0 =
        (⟨[[(5, 7)], [(5, 7)]]⟩, 2) ∧
      ((⟨[[(5, 7)], [(5, 7)]]⟩ : ContextImpl).set 0 5 9 false).1.get 1 5 = (true, 7) ∧
      ((⟨[[(5, 7)], [(5, 7)]]⟩ : ContextImpl).set 0 5 9 false).1.get 2 5 =
        (⟨[[(5, 7)], [(5, 7)]]⟩ : ContextImpl).get 2 5 :=
  have h := clone_no_aliasing (2 ^ 64 - 1) (ContextImpl.init.set 0 5 7 false).1
    ⟨[[(5, 7)], [(5, 7)]]⟩ 0 2 (by decide) (by decide) (by decide) 5 5 9 false
  ⟨by decide, h.2.1.trans (by decide), h.1.1⟩

/-! ## The root environment -/

theorem rootedReachable_nonempty {CTX_INV_ID : Nat} {c : ContextImpl}
    (h : RootedReachable CTX_INV_ID c) : 0 < c.m_environments.length := by
  induction h with
  | init => exact Nat.zero_lt_one
  | clone c env _ ih =>
    unfold ContextImpl.clone_environment
    split
    · exact ih
    · simp
  | release c c' env _ hpos hrel ih =>
    unfold ContextImpl.release_environment at hrel
    by_cases hlt : env < c.m_environments.length
    · rw [if_pos hlt] at hrel
      rw [← Option.some.inj hrel]
      show 0 < (c.m_environments.eraseIdx env).length
      rw [List.length_eraseIdx_of_lt hlt]
      omega
    · rw [if_neg hlt] at hrel
      exact Option.noConfusion hrel
  | set c env key value g _ ih =>
    rw [set_length]
    exact ih
  | unset c env key _ ih =>
    rw [unset_length]
    exact ih

theorem clone_frame_root (CTX_INV_ID : Nat) (c : ContextImpl) (env : Nat) :
    (c.clone_environment CTX_INV_ID env).1.m_environments[0]? = c.m_environments[0]? := by
  unfold ContextImpl.clone_environment
  split
  · rfl
  · rename_i h
    have hlt : 0 < c.m_environments.length := by
      by_contra h0
      exact h (Or.inr (by omega))
    exact List.getElem?_append_left hlt

/-- C13: the constructor makes exactly one environment, empty, under id 0.  In
every store reached from it with `release_environment` called only at ids in
range other than 0, id 0 is live, and a further call of `clone_environment`, of
`release_environment` at an id other than 0, or of `set` or `unset` at an id
other than 0 leaves the environment of id 0 as it was. -/
theorem root_environment_persists (CTX_INV_ID : Nat) (c : ContextImpl)
    (hc : RootedReachable CTX_INV_ID c) :
    ContextImpl.init.m_environments = [[]] ∧
      0 < c.m_environments.length ∧
      (∀ env, (c.clone_environment CTX_INV_ID env).1.m_environments[0]? =
        c.m_environments[0]?) ∧
      (∀ env c2, 0 < env → c.release_environment env = some c2 →
        c2.m_environments[0]? = c.m_environments[0]?) ∧
      (∀ env k v g, env ≠ 0 →
        (c.set env k v g).1.m_environments[0]? = c.m_environments[0]?) ∧
      (∀ env k, env ≠ 0 → (c.unset env k).1.m_environments[0]? = c.m_environments[0]?) := by
  refine ⟨rfl, rootedReachable_nonempty hc, clone_frame_root CTX_INV_ID c, ?_, ?_, ?_⟩
  · intro env c2 hpos hrel
    unfold ContextImpl.release_environment at hrel
    by_cases hlt : env < c.m_environments.length
    · rw [if_pos hlt] at hrel
      rw [← Option.some.inj hrel]
      exact List.getElem?_eraseIdx_of_lt _ _ _ hpos
    · rw [if_neg hlt] at hrel
      exact Option.noConfusion hrel
  · intro env k v g hne
    exact set_frame_env c env k v g (Ne.symm hne)
  · intro env k hne
    exact unset_frame_env c env k (Ne.symm hne)

/-- The statement of `root_environment_persists` at the store of two
environments reached by binding key 5 at the root, cloning the root and binding
key 6 at id 1: releasing id 1 leaves the root environment `(5, 7)`. -/
theorem root_environment_persists_witness :
    (((ContextImpl.init.set 0 5 7 false).1.clone_environment (2 ^ 64 - 1) 0).1.set 1 6 2
        false).1 = ⟨[[(5, 7)], [(5, 7), (6, 2)]]⟩ ∧
      (⟨[[(5, 7)], [(5, 7), (6, 2)]]⟩ : ContextImpl).release_environment 1 =
        some ⟨[[(5, 7)]]⟩ ∧
      0 < (⟨[[(5, 7)], [(5, 7), (6, 2)]]⟩ : ContextImpl).m_environments.length ∧
      (⟨[[(5, 7)]]⟩ : ContextImpl).m_environments[0]? =
        (⟨[[(5, 7)], [(5, 7), (6, 2)]]⟩ : ContextImpl).m_environments[0]? :=
  have hstore : (⟨[[(5, 7)], [(5, 7), (6, 2)]]⟩ : ContextImpl) =
      (((ContextImpl.init.set 0 5 7 false).1.clone_environment (2 ^ 64 - 1) 0).1.set 1 6 2
        false).1 := by decide
  have hreach : RootedReachable (2 ^ 64 - 1) ⟨[[(5, 7)], [(5, 7), (6, 2)]]⟩ := by
    rw [hstore]
    exact RootedReachable.set _ 1 6 2 false
      (RootedReachable.clone _ 0 (RootedReachable.set _ 0 5 7 false RootedReachable.init))
  have h := root_environment_persists (2 ^ 64 - 1) ⟨[[(5, 7)], [(5, 7), (6, 2)]]⟩ hreach
  ⟨by decide, by decide, h.2.1, h.2.2.2.1 1 ⟨[[(5, 7)]]⟩ (by decide) (by decide)⟩


/-! ## The wire format of the tagged value -/

theorem le_bytes_length (n v : Nat) : (le_bytes n v).length = n := by
  induction n generalizing v with
  | zero => rfl
  | succ n ih => simp [le_bytes, ih]

theorem le_value_le_bytes (n v : Nat) : le_value (le_bytes n v) = v % 256 ^ n := by
  induction n generalizing v with
  | zero => simp [le_bytes, le_value, Nat.mod_one]
  | succ n ih =>
    simp only [le_bytes, le_value, ih]
    rw [Nat.pow_succ, Nat.mul_comm (256 ^ n) 256, Nat.mod_mul]

theorem le_value_take (v : Nat) (rest : List Nat) (hv : v < 2 ^ 64) :
    le_value ((le_bytes 8 v ++ rest).take 8) = v := by
  have hlen : (le_bytes 8 v).length = 8 := le_bytes_length 8 v
  rw [List.take_left' hlen, le_value_le_bytes]
  exact Nat.mod_eq_of_lt (by norm_num at hv ⊢; exact hv)

theorem vlenc_loop_pos (fuel n : Nat) : 0 < (vlenc_loop (fuel + 1) n).length := by
  simp only [vlenc_loop]
  split <;> simp

/-- Decoding reads back a word from its variable-length encoding, whatever
follows it in the buffer, and reads exactly the bytes of the encoding. -/
theorem vldec_vlenc (fuel : Nat) :
    ∀ (n : Nat) (rest : List Nat), n < 128 ^ (fuel + 1) →
      vldec_loop (fuel + 1) (vlenc_loop (fuel + 1) n ++ rest) =
        some (n, (vlenc_loop (fuel + 1) n).length) := by
  induction fuel with
  | zero =>
    intro n rest hn
    have h : n < 128 := by simpa using hn
    simp [vlenc_loop, vldec_loop, h]
  | succ fuel ih =>
    intro n rest hn
    by_cases h : n < 128
    · rw [vlenc_loop, if_pos h]
      simp [vldec_loop, h]
    · have hdiv : n / 128 < 128 ^ (fuel + 1) := by
        rw [Nat.div_lt_iff_lt_mul (by decide)]
        rw [Nat.pow_succ] at hn
        exact hn
      have hb : ¬ n % 128 + 128 < 128 := by omega
      rw [vlenc_loop, if_neg h, List.cons_append, vldec_loop, if_neg hb, ih (n / 128) rest hdiv]
      simp only [List.length_cons, Option.some.injEq, Prod.mk.injEq, and_true]
      omega

theorem vldec_vlenc_u64 (n : Nat) (rest : List Nat) (hn : n < 2 ^ 64) :
    vldec_u64 (vlenc_u64 n ++ rest) = some (n, (vlenc_u64 n).length) := by
  unfold vldec_u64 vlenc_u64
  apply vldec_vlenc 9 n rest
  exact Nat.lt_of_lt_of_le hn (by norm_num)

theorem drop_take_blob (enc bytes rest : List Nat) :
    ((enc ++ bytes ++ rest).drop enc.length).take bytes.length = bytes := by
  rw [List.append_assoc, List.drop_left, List.take_left]

theorem drop_length_blob (enc bytes rest : List Nat) :
    ¬ ((enc ++ bytes ++ rest).drop enc.length).length < bytes.length := by
  rw [List.append_assoc, List.drop_left, List.length_append]
  omega

theorem type_of_code_type_code (t : cali_attr_type) : type_of_code (type_code t) = some t := by
  cases t <;> rfl

theorem int_of_word (v : Int) (h1 : -(2 ^ 63 : Int) ≤ v) (h2 : v < 2 ^ 63) :
    (if (v % 2 ^ 64).toNat < 2 ^ 63 then (((v % 2 ^ 64).toNat : Nat) : Int)
      else (((v % 2 ^ 64).toNat : Nat) : Int) - 2 ^ 64) = v := by
  have hpos : (0 : Int) ≤ v % 2 ^ 64 := Int.emod_nonneg v (by norm_num)
  have hcast : (((v % 2 ^ 64).toNat : Nat) : Int) = v % 2 ^ 64 := Int.toNat_of_nonneg hpos
  split
  · rename_i h
    have h3 : v % 2 ^ 64 < 2 ^ 63 := by
      rw [← hcast]
      exact_mod_cast h
    rw [hcast]
    omega
  · rename_i h
    have h3 : ¬ v % 2 ^ 64 < 2 ^ 63 := by
      intro hlt
      apply h
      have : (((v % 2 ^ 64).toNat : Nat) : Int) < 2 ^ 63 := by rw [hcast]; exact hlt
      exact_mod_cast this
    rw [hcast]
    omega

theorem word_of_int_lt (v : Int) : (v % 2 ^ 64).toNat < 2 ^ 64 := by
  have hpos : (0 : Int) ≤ v % 2 ^ 64 := Int.emod_nonneg v (by norm_num)
  have hlt : v % 2 ^ 64 < 2 ^ 64 := Int.emod_lt_of_pos v (by norm_num)
  omega


/-- C15: for every constructible tagged value, `unpack` on the bytes written by
`pack`, whatever follows them in the buffer, reports success, returns the value
itself, with the same type, and advances by the number of bytes `pack` wrote;
so values packed one after the other unpack in sequence. -/
theorem pack_unpack_round_trip (v : Variant) (hv : v.Constructible) (rest : List Nat) :
    Variant.unpack (v.pack ++ rest) = (v, v.pack.length, true) ∧
      (Variant.unpack (v.pack ++ rest)).1.type = v.type ∧
      (Variant.unpack (v.pack ++ rest)).2.2 = true := by
  have key : Variant.unpack (v.pack ++ rest) = (v, v.pack.length, true) := by
    cases v with
    | inv => rfl
    | int x =>
      obtain ⟨h1, h2⟩ := hv
      have hlen : ¬ (le_bytes 8 (x % 2 ^ 64).toNat ++ rest).length < 8 := by
        rw [List.length_append, le_bytes_length]
        omega
      simp only [Variant.pack, List.cons_append, Variant.unpack, type_code, type_of_code,
        Variant.unpack_payload]
      rw [if_neg hlen, le_value_take _ rest (word_of_int_lt x), int_of_word x h1 h2]
      simp [le_bytes_length]
    | uint x =>
      have hx : x < 2 ^ 64 := hv
      simp only [Variant.pack, List.cons_append, Variant.unpack, type_code, type_of_code,
        Variant.unpack_payload]
      rw [vldec_vlenc_u64 x rest hx]
      simp
    | double bits =>
      have hx : bits < 2 ^ 64 := hv
      have hlen : ¬ (le_bytes 8 bits ++ rest).length < 8 := by
        rw [List.length_append, le_bytes_length]
        omega
      simp only [Variant.pack, List.cons_append, Variant.unpack, type_code, type_of_code,
        Variant.unpack_payload]
      rw [if_neg hlen, le_value_take _ rest hx]
      simp [le_bytes_length]
    | bool b =>
      cases b <;> rfl
    | string bytes =>
      obtain ⟨hlen, _⟩ := hv
      simp only [Variant.pack, List.cons_append, Variant.unpack, type_code, type_of_code,
        Variant.unpack_payload]
      rw [List.append_assoc, vldec_vlenc_u64 bytes.length (bytes ++ rest) hlen]
      simp only []
      rw [← List.append_assoc, if_neg (drop_length_blob _ bytes rest), drop_take_blob]
      simp
    | addr bytes =>
      obtain ⟨hlen, _⟩ := hv
      have hlt : bytes.length < 2 ^ 64 := by
        rw [hlen]
        norm_num
      have hok : ¬ (bytes.length ≠ 8 ∨
          ((vlenc_u64 bytes.length ++ bytes ++ rest).drop (vlenc_u64 bytes.length).length).length
            < bytes.length) := by
        intro h
        rcases h with h | h
        · exact h hlen
        · exact drop_length_blob _ bytes rest h
      simp only [Variant.pack, List.cons_append, Variant.unpack, type_code, type_of_code,
        Variant.unpack_payload]
      rw [List.append_assoc, vldec_vlenc_u64 bytes.length (bytes ++ rest) hlt]
      simp only []
      rw [← List.append_assoc, if_neg hok, drop_take_blob]
      simp
    | attr_type t =>
      cases t <;> rfl
  rw [key]
  exact ⟨rfl, rfl, rfl⟩

/-- The statement of `pack_unpack_round_trip` at the seven values of the test,
packed one after the other (-27, 0xFFFFFFFFAA, the test string with its
terminator, the pattern of 42.42, the empty value, `CALI_TYPE_ADDR`, true): the
57 bytes unpack in sequence to the seven values. -/
theorem pack_unpack_round_trip_witness :
    Variant.Constructible (.int (-27)) ∧
      Variant.unpack ((Variant.int (-27)).pack ++
        ((Variant.uint 1099511627690).pack ++
          ((Variant.string [77, 121, 32, 119, 111, 110, 100, 101, 114, 102, 117, 108, 32, 116,
              101, 115, 116, 32, 115, 116, 114, 105, 110, 103, 0]).pack ++
            ((Variant.double 4631166901565532406).pack ++
              (Variant.inv.pack ++
                ((Variant.attr_type .CALI_TYPE_ADDR).pack ++
                  ((Variant.bool true).pack ++ []))))))) = (.int (-27), 9, true) ∧
      Variant.unpack ((Variant.uint 1099511627690).pack ++
          ((Variant.string [77, 121, 32, 119, 111, 110, 100, 101, 114, 102, 117, 108, 32, 116,
              101, 115, 116, 32, 115, 116, 114, 105, 110, 103, 0]).pack ++
            ((Variant.double 4631166901565532406).pack ++
              (Variant.inv.pack ++
                ((Variant.attr_type .CALI_TYPE_ADDR).pack ++
                  ((Variant.bool true).pack ++ [])))))) = (.uint 1099511627690, 7, true) ∧
      Variant.unpack ((Variant.string [77, 121, 32, 119, 111, 110, 100, 101, 114, 102, 117, 108,
              32, 116, 101, 115, 116, 32, 115, 116, 114, 105, 110, 103, 0]).pack ++
            ((Variant.double 4631166901565532406).pack ++
              (Variant.inv.pack ++
                ((Variant.attr_type .CALI_TYPE_ADDR).pack ++
                  ((Variant.bool true).pack ++ []))))) =
        (.string [77, 121, 32, 119, 111, 110, 100, 101, 114, 102, 117, 108, 32, 116,
              101, 115, 116, 32, 115, 116, 114, 105, 110, 103, 0], 27, true) ∧
      Variant.unpack ((Variant.double 4631166901565532406).pack ++
              (Variant.inv.pack ++
                ((Variant.attr_type .CALI_TYPE_ADDR).pack ++
                  ((Variant.bool true).pack ++ [])))) =
        (.double 4631166901565532406, 9, true) ∧
      Variant.unpack (Variant.inv.pack ++
                ((Variant.attr_type .CALI_TYPE_ADDR).pack ++
                  ((Variant.bool true).pack ++ []))) = (.inv, 1, true) ∧
      Variant.unpack ((Variant.attr_type .CALI_TYPE_ADDR).pack ++
                  ((Variant.bool true).pack ++ [])) =
        (.attr_type .CALI_TYPE_ADDR, 2, true) ∧
      Variant.unpack ((Variant.bool true).pack ++ []) = (.bool true, 2, true) :=
  ⟨show -(2 ^ 63 : Int) ≤ -27 ∧ (-27 : Int) < 2 ^ 63 by decide,
    (pack_unpack_round_trip (.int (-27))
      (show -(2 ^ 63 : Int) ≤ -27 ∧ (-27 : Int) < 2 ^ 63 by decide) _).1,
    (pack_unpack_round_trip (.uint 1099511627690)
      (show 1099511627690 < 2 ^ 64 by decide) _).1.trans (by decide),
    (pack_unpack_round_trip (.string [77, 121, 32, 119, 111, 110, 100, 101, 114, 102, 117, 108,
      32, 116, 101, 115, 116, 32, 115, 116, 114, 105, 110, 103, 0])
      ⟨by decide, by decide⟩ _).1.trans (by decide),
    (pack_unpack_round_trip (.double 4631166901565532406)
      (show 4631166901565532406 < 2 ^ 64 by decide) _).1,
    (pack_unpack_round_trip .inv trivial _).1,
    (pack_unpack_round_trip (.attr_type .CALI_TYPE_ADDR) trivial _).1,
    (pack_unpack_round_trip (.bool true) trivial _).1⟩

/-! ## Parsing a tagged value from text -/

/-- C16: `from_string` for the invalid tag fails on every text; whenever
`from_string` fails, for any tag and text, the value returned is the absent
one; the texts of the test give the results of the test. -/
theorem from_string_contract (parse_double : List Char → Option Nat)
    (parse_addr : List Char → Option (List Nat)) :
    (∀ text, (Variant.from_string parse_double parse_addr .CALI_TYPE_INV text).2 = false) ∧
      (∀ t text, (Variant.from_string parse_double parse_addr t text).2 = false →
        (Variant.from_string parse_double parse_addr t text).1 = Variant.inv) ∧
      Variant.from_string parse_double parse_addr .CALI_TYPE_INV "42" = (.inv, false) ∧
      Variant.from_string parse_double parse_addr .CALI_TYPE_INT "bla" = (.inv, false) ∧
      Variant.from_string parse_double parse_addr .CALI_TYPE_BOOL "bla" = (.inv, false) ∧
      Variant.from_string parse_double parse_addr .CALI_TYPE_TYPE "bla" = (.inv, false) ∧
      Variant.from_string parse_double parse_addr .CALI_TYPE_INT "42" = (.int 42, true) ∧
      Variant.from_string parse_double parse_addr .CALI_TYPE_INT " -10 " =
        (.int (-10), true) ∧
      Variant.from_string parse_double parse_addr .CALI_TYPE_BOOL "false" =
        (.bool false, true) ∧
      Variant.from_string parse_double parse_addr .CALI_TYPE_BOOL "1" = (.bool true, true) ∧
      Variant.from_string parse_double parse_addr .CALI_TYPE_STRING "" = (.string [], true) ∧
      Variant.from_string parse_double parse_addr .CALI_TYPE_TYPE "int" =
        (.attr_type .CALI_TYPE_INT, true) := by
  have i1 : parse_int "bla".data = none := by decide
  have i2 : parse_int "42".data = some 42 := by decide
  have i3 : parse_int " -10 ".data = some (-10) := by decide
  have b1 : parse_bool "bla".data = none := by decide
  have b2 : parse_bool "false".data = some false := by decide
  have b3 : parse_bool "1".data = some true := by decide
  have t1 : cali_string2type "bla".data = none := by decide
  have t2 : cali_string2type "int".data = some .CALI_TYPE_INT := by decide
  refine ⟨fun _ => rfl, ?_, rfl, ?_, ?_, ?_, ?_, ?_, ?_, ?_, rfl, ?_⟩
  · intro t text h
    cases t <;> simp only [Variant.from_string] at h ⊢ <;> revert h <;> (try split) <;>
      (try split) <;> simp
  · simp only [Variant.from_string, i1]
  · simp only [Variant.from_string, b1]
  · simp only [Variant.from_string, t1]
  · simp only [Variant.from_string, i2]
    decide
  · simp only [Variant.from_string, i3]
    decide
  · simp only [Variant.from_string, b2]
  · simp only [Variant.from_string, b3]
  · simp only [Variant.from_string, t2]

/-- The statement of `from_string_contract` with parsers of doubles and
addresses that accept nothing: an integer text with trailing garbage fails and
gives the absent value. -/
theorem from_string_contract_witness :
    (Variant.from_string (fun _ => none) (fun _ => none) .CALI_TYPE_INT "42x").2 = false ∧
      (Variant.from_string (fun _ => none) (fun _ => none) .CALI_TYPE_INT "42x").1 =
        Variant.inv ∧
      (Variant.from_string (fun _ => none) (fun _ => none) .CALI_TYPE_INV "42").2 = false :=
  have h := from_string_contract (fun _ => none) (fun _ => none)
  ⟨by decide, h.2.1 .CALI_TYPE_INT "42x" (by decide), h.1 "42"⟩


end Caliper
